import Mathlib

/-!
# Verification development for `dedup` (`src/main.go`)

The program walks a directory tree, fingerprints every regular file and
replaces files whose fingerprint is already recorded in the table
`file_hashes` by a symbolic link to the recorded path.

The embedding below follows `main.go` function by function.  Calls into the
operating system and into the SQL driver are modelled as total, fallible
functions of an explicit state; failures that depend on things the state does
not track (permissions, a broken store) are supplied by a `Faults` record.
-/

namespace Dedup

/-! ## Data model -/

/-- The record `FileOp` of `main.go`. -/
structure FileOp where
  Path : String
  Hash : String
deriving DecidableEq, Repr

/-- The table `file_hashes (hash TEXT, file_path TEXT)`: its rows in rowid
order.  The table has no key and no uniqueness constraint. -/
abbrev Index := List (String × String)

/-- What a path names, as `os.Lstat` sees it. -/
inductive Node where
  | regular (content : List UInt8)
  | symlink (target : String)
  | dir
deriving DecidableEq, Repr

/-- The file system as a map from path to what the path names. -/
abbrev FS := String → Option Node

/-- Shared state of the resolver workers: the table and the file system. -/
structure State where
  index : Index
  fs : FS

/-- Failures of the environment during one iteration of the `dbWorker` loop:
`true` makes the corresponding call return an error. -/
structure Faults where
  query : Bool
  remove : Bool
  symlink : Bool
  insert : Bool
deriving DecidableEq, Repr

/-- No call fails for a reason outside the state. -/
def noFaults : Faults := { query := false, remove := false, symlink := false, insert := false }

/-! ## The store -/

/-- Outcome of `stmt.QueryRow(hash).Scan(&originalFilePath)`. -/
inductive ScanResult where
  | ok (filePath : String)
  | errNoRows
  | err
deriving DecidableEq, Repr

/-- First row whose `hash` column equals the argument
(`SELECT file_path FROM file_hashes WHERE hash=?`, first row only). -/
def firstRow (h : String) : Index → Option String
  | [] => none
  | (k, v) :: rest => if k = h then some v else firstRow h rest

/-- The call `stmt.QueryRow(fileOp.Hash).Scan(&originalFilePath)`. -/
def queryRow (fault : Bool) (idx : Index) (h : String) : ScanResult :=
  if fault then .err
  else match firstRow h idx with
    | some v => .ok v
    | none => .errNoRows

/-- The call `db.Exec("INSERT INTO file_hashes (hash, file_path) VALUES (?, ?)", h, p)`:
appends a row. -/
def dbInsert (fault : Bool) (idx : Index) (h p : String) : Option Index :=
  if fault then none else some (idx ++ [(h, p)])

/-! ## The file system calls of the resolver -/

/-- The call `os.Lstat`: the empty path names nothing. -/
def osLstat (fs : FS) (p : String) : Option Node :=
  if p = "" then none else fs p

/-- The call `os.Remove(p)`: fails when nothing is at `p`.  Failures the map
does not show (permissions, a directory that is not empty) come as `fault`. -/
def osRemove (fault : Bool) (fs : FS) (p : String) : Option FS :=
  if fault then none
  else match osLstat fs p with
    | none => none
    | some _ => some (fun q => if q = p then none else fs q)

/-- The call `os.Symlink(oldname, newname)`: fails when `newname` exists, and
when either argument is the empty string (`ENOENT` of `symlink(2)`).  Failures
the map does not show come as `fault`. -/
def osSymlink (fault : Bool) (fs : FS) (oldname newname : String) : Option FS :=
  if fault ∨ oldname = "" ∨ newname = "" then none
  else match fs newname with
    | some _ => none
    | none => some (fun q => if q = newname then some (.symlink oldname) else fs q)

/-! ## `dbWorker`: one iteration of the loop over `fileOpChan` -/

/-- Value of `originalFilePath` after the `Scan`: the zero value `""` stays
when there is no row. -/
def scanned : ScanResult → String
  | .ok v => v
  | _ => ""

/-- Body of the loop `for fileOp := range wp.fileOpChan` of `dbWorker`. -/
def dbWorkerStep (flt : Faults) (fileOp : FileOp) (s : State) : State :=
  match queryRow flt.query s.index fileOp.Hash with
  | .err => s
  | r =>
    let originalFilePath := scanned r
    if originalFilePath ≠ "" ∧ originalFilePath ≠ fileOp.Path then
      match osRemove flt.remove s.fs fileOp.Path with
      | none => s
      | some fs1 =>
        match osSymlink flt.symlink fs1 originalFilePath fileOp.Path with
        | none => { s with fs := fs1 }
        | some fs2 => { s with fs := fs2 }
    else if originalFilePath = "" then
      match dbInsert flt.insert s.index fileOp.Hash fileOp.Path with
      | none => s
      | some idx => { s with index := idx }
    else s

/-- The loop of `dbWorker` over the records it receives, one after the other. -/
def dbWorkerRun : List (Faults × FileOp) → State → State
  | [], s => s
  | (flt, op) :: rest, s => dbWorkerRun rest (dbWorkerStep flt op s)

/-- The rows of the table for one fingerprint. -/
def rowsFor (h : String) (idx : Index) : List (String × String) :=
  idx.filter (fun r => r.1 = h)

/-- Path of the first record of a sequence that carries the fingerprint. -/
def firstPath (h : String) : List FileOp → Option String
  | [] => none
  | op :: rest => if op.Hash = h then some op.Path else firstPath h rest

/-- What `dbWorker` does to the table when nothing fails and no path is empty:
a row is appended exactly when the fingerprint has no row yet. -/
def insertIfAbsent (idx : Index) (op : FileOp) : Index :=
  match firstRow op.Hash idx with
  | some _ => idx
  | none => idx ++ [(op.Hash, op.Path)]

/-! ## `sha256File` -/

/-- The constant `BufferSize` (64 KB). -/
def BufferSize : Nat := 64 * 1024

/-- The `error` result of one `file.Read(buf)`. -/
inductive ReadErr where
  | nil
  | eof
  | other
deriving DecidableEq, Repr

/-- One `file.Read(buf)`: the bytes it stored at the start of `buf` (their
number is the `n` it returns) and its error. -/
structure ReadResult where
  data : List UInt8
  err : ReadErr
deriving DecidableEq, Repr

/-- How a call of `sha256File` ends.  `reading` is the state of a call whose
loop has used up every read it was given without leaving the loop. -/
inductive HashResult where
  | ok (fingerprint : String)
  | error
  | panicked
  | reading
deriving DecidableEq, Repr

/-- One hexadecimal digit as `%x` prints it. -/
def hexDigit (n : Nat) : Char :=
  if n < 10 then Char.ofNat (48 + n) else Char.ofNat (87 + n)

/-- The formatting `fmt.Sprintf("%x", bytes)`: two lowercase digits per byte. -/
def hexEncode (bytes : List UInt8) : String :=
  String.mk (bytes.flatMap (fun b => [hexDigit (b.toNat / 16), hexDigit (b.toNat % 16)]))

/-- The loop `for { n, err := file.Read(buf) ... }` of `sha256File` together with
the `return` that follows it.  The state of `hasher` is the sequence of bytes
written to it so far (`hash.Hash`: `Sum` gives the digest of everything
written).  Slicing `buf[:n]` beyond the buffer panics. -/
def readLoop (digest : List UInt8 → List UInt8) (hasher : List UInt8) :
    List ReadResult → HashResult
  | [] => .reading
  | r :: rest =>
    if BufferSize < r.data.length then .panicked
    else
      let hasher1 := if 0 < r.data.length then hasher ++ r.data else hasher
      if r.err = .eof then .ok (hexEncode (digest hasher1))
      else if r.err ≠ .nil then .error
      else readLoop digest hasher1 rest

/-- The function `sha256File`.  `digest` is SHA-256; `file` is `none` when
`os.Open` fails and otherwise the results of the successive reads. -/
def sha256File (digest : List UInt8 → List UInt8) (file : Option (List ReadResult)) :
    HashResult :=
  match file with
  | none => .error
  | some reads => readLoop digest [] reads

/-- The fingerprint of a byte content as the specification has it: the
lowercase hexadecimal encoding of the digest of the whole content. -/
def fingerprintSpec (digest : List UInt8 → List UInt8) (content : List UInt8) : String :=
  hexEncode (digest content)

/-- A way of reading `content` without failure: reads with no error, of at most
`BufferSize` bytes each (possibly none), then one read that reports end of
file, with or without bytes; together the reads deliver `content`. -/
def Chunking (content : List UInt8) (reads : List ReadResult) : Prop :=
  ∃ body last, reads = body ++ [last]
    ∧ (∀ r ∈ body, r.err = .nil)
    ∧ last.err = .eof
    ∧ (∀ r ∈ reads, r.data.length ≤ BufferSize)
    ∧ (reads.map ReadResult.data).flatten = content

/-! ## Paths: `filepath.Join` -/

/-- The elements of a path between its separators. -/
def splitSlash : List Char → List (List Char)
  | [] => [[]]
  | c :: cs =>
    if c = '/' then [] :: splitSlash cs
    else match splitSlash cs with
      | [] => [[c]]
      | x :: xs => (c :: x) :: xs

/-- One element processed by `filepath.Clean`; `out` holds the elements kept so
far, last one first.  Empty and `.` elements are dropped; `..` removes the
element before it, is dropped at the root, and is kept at the start of a path
that is not rooted. -/
def cleanPush (rooted : Bool) (out : List (List Char)) (elem : List Char) : List (List Char) :=
  if elem = [] ∨ elem = ['.'] then out
  else if elem = ['.', '.'] then
    match out with
    | [] => if rooted then [] else [elem]
    | top :: below => if top = ['.', '.'] then elem :: out else below
  else elem :: out

/-- The elements `filepath.Clean` keeps, in order. -/
def cleanElems (rooted : Bool) (path : List Char) : List (List Char) :=
  ((splitSlash path).foldl (cleanPush rooted) []).reverse

/-- The test `filepath.IsAbs` (Unix): the path starts with the separator. -/
def IsAbs (path : String) : Bool :=
  path.data.head? = some '/'

/-- Path elements written one after the other with a separator in between. -/
def joinSlash : List (List Char) → List Char
  | [] => []
  | [e] => e
  | e :: rest => e ++ '/' :: joinSlash rest

/-- The function `filepath.Clean` (Unix). -/
def Clean (path : String) : String :=
  let elems := cleanElems (IsAbs path) path.data
  if IsAbs path then String.mk ('/' :: joinSlash elems)
  else if elems = [] then "."
  else String.mk (joinSlash elems)

/-- The call `filepath.Join(dir, name)`: the non-empty arguments joined by the
separator, then cleaned; the empty string when both are empty. -/
def Join (dir name : String) : String :=
  if dir ≠ "" then Clean (dir ++ "/" ++ name)
  else if name ≠ "" then Clean name
  else ""

/-! ## The directory tree -/

/-- What is found at a path of the tree under the root.  A directory carries
whether `os.ReadDir` succeeds on it and its entries; each entry has its name,
whether `os.Lstat` succeeds on it, and what it is. -/
inductive Tree where
  | regular (content : List UInt8)
  | symlink (target : String)
  | special
  | dir (readable : Bool) (entries : List (String × Bool × Tree))

/-- A directory entry: name, whether `os.Lstat` succeeds, what it is. -/
abbrev Entry := String × Bool × Tree

/-- The call `os.ReadDir`: fails on what is not a directory and on a directory
marked unreadable. -/
def readDir : Tree → Option (List Entry)
  | .dir true entries => some entries
  | _ => none

/-! ## The worker pool -/

/-- A goroutine running `processDirectory(rootDir, dir)`: before its call of
`os.ReadDir`, or inside its loop with the entries it has yet to visit. -/
inductive Task where
  | start (dir : String) (node : Tree)
  | loop (dir : String) (entries : List Entry)

/-- State of a `workerPool` and of the goroutines started for it.
`wg` is the counter of `wp.wg`; `sent` lists the paths sent on `filePathChan`;
`fileWorkers` and `dbWorkers` count the goroutines still in their `range` loop;
the three flags follow the main goroutine through `Wait`. -/
structure Pool where
  wg : Int
  tasks : List Task
  sent : List String
  fileWorkers : Nat
  dbWorkers : Nat
  waitReturned : Bool
  fileOpChanClosed : Bool
  filePathChanClosed : Bool

/-- The state `newWorkerPool(numWorkers, db, rootDir)` leaves: `Add(numWorkers)`,
the workers started, `Add(1)`, and the goroutine for the root directory. -/
def newWorkerPool (numWorkers : Nat) (rootDir : String) (root : Tree) : Pool :=
  { wg := (numWorkers : Int) + 1
    tasks := [.start rootDir root]
    sent := []
    fileWorkers := numWorkers
    dbWorkers := numWorkers
    waitReturned := false
    fileOpChanClosed := false
    filePathChanClosed := false }

/-- What a scheduler may let happen next. -/
inductive Action where
  | task (i : Nat)
  | waitReturn
  | closeFileOpChan
  | closeFilePathChan
  | fileWorkerExit
  | dbWorkerExit
  | dbWorkerAbort
deriving DecidableEq, Repr

/-- What the next step of a `processDirectory` goroutine does to the pool. -/
inductive TaskEffect where
  | done
  | next (t : Task)
  | send (filePath : String) (t : Task)
  | spawn (t : Task) (child : Task)

/-- The function `processDirectory`, one step at a time: the call of
`os.ReadDir`, one iteration of the loop over the entries, or the return. -/
def processDirectoryStep : Task → TaskEffect
  | .start dir node =>
    match readDir node with
    | none => .done
    | some files => .next (.loop dir files)
  | .loop _ [] => .done
  | .loop dir ((name, lstatOk, node) :: rest) =>
    let filePath := Join dir name
    if lstatOk = false then .next (.loop dir rest)
    else match node with
      | .regular _ => .send filePath (.loop dir rest)
      | .dir _ _ => .spawn (.loop dir rest) (.start filePath node)
      | _ => .next (.loop dir rest)

/-- The call `wp.wg.Done()`: the counter goes down by one; a counter that would
become negative makes the call panic. -/
def wgDone (s : Pool) : Option Pool :=
  if s.wg - 1 < 0 then none else some { s with wg := s.wg - 1 }

/-- The effect of a step of the `i`-th goroutine on the pool: the deferred
`wp.wg.Done()` on return, the send on `filePathChan` (which needs the channel
open and a `fileWorker` receiving), `wp.wg.Add(1)` and the new goroutine. -/
def applyEffect (i : Nat) (s : Pool) : TaskEffect → Option Pool
  | .done => wgDone { s with tasks := s.tasks.eraseIdx i }
  | .next t => some { s with tasks := s.tasks.set i t }
  | .send filePath t =>
    if s.filePathChanClosed = true ∨ s.fileWorkers = 0 then none
    else some { s with tasks := s.tasks.set i t, sent := s.sent ++ [filePath] }
  | .spawn t child => some { s with wg := s.wg + 1, tasks := s.tasks.set i t ++ [child] }

/-- The `i`-th `processDirectory` goroutine takes its next step. -/
def taskStep (i : Nat) (s : Pool) : Option Pool :=
  match s.tasks[i]? with
  | none => none
  | some t => applyEffect i s (processDirectoryStep t)

/-- One step of the pool.  `wp.wg.Wait()` returns when the counter is zero;
`Wait` then closes `fileOpChan` and `filePathChan`; a worker leaves its `range`
loop and calls `wp.wg.Done()` once its channel is closed; a `dbWorker` whose
`db.Prepare` fails returns without `Done`. -/
def poolStep (a : Action) (s : Pool) : Option Pool :=
  match a with
  | .task i => taskStep i s
  | .waitReturn =>
    if s.waitReturned = false ∧ s.wg = 0 then some { s with waitReturned := true } else none
  | .closeFileOpChan =>
    if s.waitReturned = true ∧ s.fileOpChanClosed = false then
      some { s with fileOpChanClosed := true }
    else none
  | .closeFilePathChan =>
    if s.fileOpChanClosed = true ∧ s.filePathChanClosed = false then
      some { s with filePathChanClosed := true }
    else none
  | .fileWorkerExit =>
    if s.filePathChanClosed = true ∧ 0 < s.fileWorkers then
      wgDone { s with fileWorkers := s.fileWorkers - 1 }
    else none
  | .dbWorkerExit =>
    if s.fileOpChanClosed = true ∧ 0 < s.dbWorkers then
      wgDone { s with dbWorkers := s.dbWorkers - 1 }
    else none
  | .dbWorkerAbort =>
    if 0 < s.dbWorkers then some { s with dbWorkers := s.dbWorkers - 1 } else none

/-- A run of the pool under a schedule; `none` when the schedule asks for a
step that cannot happen. -/
def poolRun : List Action → Pool → Option Pool
  | [], s => some s
  | a :: rest, s =>
    match poolStep a s with
    | none => none
    | some s1 => poolRun rest s1

/-- The main goroutine is through `Wait`: `wp.wg.Wait()` has returned and both
channels are closed. -/
def Terminated (s : Pool) : Prop :=
  s.waitReturned = true ∧ s.fileOpChanClosed = true ∧ s.filePathChanClosed = true

/-- While `Wait` has not returned, the counter of the wait group is the number
of workers plus the number of running `processDirectory` goroutines. -/
def PoolInv (numWorkers : Nat) (s : Pool) : Prop :=
  s.waitReturned = false ∧ s.fileOpChanClosed = false ∧ s.filePathChanClosed = false
    ∧ s.fileWorkers = numWorkers ∧ s.wg = (numWorkers : Int) + (s.tasks.length : Int)

/-! ## The regular files under a directory -/

/-- Reading of the specification: `ReachableFile dir node p` says that `p` is
the path of a regular file reachable from the directory `node` at path `dir`
through a chain of real directories whose listing succeeds, every entry on the
way being one whose `os.Lstat` succeeds.  There is no rule for a symbolic link,
for a special file, or for a directory that cannot be read. -/
inductive ReachableFile : String → Tree → String → Prop where
  | here (dir : String) (files : List Entry) (name : String) (content : List UInt8) :
      (name, true, Tree.regular content) ∈ files →
      ReachableFile dir (.dir true files) (Join dir name)
  | through (dir : String) (files : List Entry) (name : String) (sub : Tree) (p : String) :
      (name, true, sub) ∈ files →
      ReachableFile (Join dir name) sub p →
      ReachableFile dir (.dir true files) p

mutual
/-- The regular files at or below an entry whose `os.Lstat` succeeded, each
listed once, in depth-first order. -/
def filesOf (filePath : String) : Tree → List String
  | .regular _ => [filePath]
  | .dir true files => filesIn filePath files
  | _ => []
/-- The regular files reachable through the entries of a directory, each listed
once, in depth-first order. -/
def filesIn (dir : String) : List Entry → List String
  | [] => []
  | (name, lstatOk, node) :: rest =>
    (if lstatOk = true then filesOf (Join dir name) node else []) ++ filesIn dir rest
end

/-- The regular files reachable from the root directory. -/
def filesUnder (rootDir : String) (root : Tree) : List String :=
  match readDir root with
  | none => []
  | some files => filesIn rootDir files

/-- The paths a `processDirectory` goroutine and the goroutines it will start
have yet to send. -/
def Task.pending : Task → List String
  | .start dir node => filesUnder dir node
  | .loop dir files => filesIn dir files

mutual
/-- Number of steps the goroutine for a node takes, its descendants included. -/
def nodeWeight : Tree → Nat
  | .dir _ files => 2 + entriesWeight files
  | _ => 1
/-- Number of steps for the entries of a directory. -/
def entriesWeight : List Entry → Nat
  | [] => 0
  | (_, _, node) :: rest => 2 + nodeWeight node + entriesWeight rest
end

/-- Number of steps a goroutine and the goroutines it will start have left. -/
def Task.weight : Task → Nat
  | .start _ node => 1 + nodeWeight node
  | .loop _ files => 1 + entriesWeight files

/-- The paths sent and the paths yet to be sent, counted together. -/
def accounted (a : String) (s : Pool) : Nat :=
  List.count a s.sent + List.count a (s.tasks.flatMap Task.pending)

/-! ## Well-formed trees -/

/-- A name `os.ReadDir` can return: not empty, without separator, and neither
`.` nor `..`. -/
def validName (name : String) : Bool :=
  decide (name.data ≠ [] ∧ '/' ∉ name.data ∧ name.data ≠ ['.'] ∧ name.data ≠ ['.', '.'])

mutual
/-- Every directory of the tree lists valid names, each once. -/
def wellFormed : Tree → Bool
  | .dir _ files => namesOk files && wellFormedAll files
  | _ => true
/-- The entries of a directory carry well-formed trees. -/
def wellFormedAll : List Entry → Bool
  | [] => true
  | (_, _, node) :: rest => wellFormed node && wellFormedAll rest
/-- The names of the entries of a directory are valid and pairwise distinct. -/
def namesOk : List Entry → Bool
  | [] => true
  | (name, _, _) :: rest =>
    validName name && namesOk rest && decide (∀ e ∈ rest, e.1 ≠ name)
end

/-- The stack of `filepath.Clean` is in normal form: no empty element, no `.`,
no separator inside an element, `..` only at the bottom of the stack, and not
at all in a rooted path. -/
def NormalStack (rooted : Bool) : List (List Char) → Prop
  | [] => True
  | top :: below =>
    top ≠ [] ∧ top ≠ ['.'] ∧ '/' ∉ top
      ∧ (top = ['.', '.'] → rooted = false ∧ ∀ e ∈ below, e = ['.', '.'])
      ∧ NormalStack rooted below

/-- The elements of a path as `filepath.Clean` keeps them. -/
def pathElems (path : String) : List (List Char) :=
  cleanElems (IsAbs path) path.data

mutual
/-- The chains of names that lead from an entry to the regular files at or
below it. -/
def chainsOf : Tree → List (List (List Char))
  | .regular _ => [[]]
  | .dir true files => chainsIn files
  | _ => []
/-- The chains of names that lead from a directory to the regular files
reachable through its entries. -/
def chainsIn : List Entry → List (List (List Char))
  | [] => []
  | (name, lstatOk, node) :: rest =>
    (if lstatOk = true then (chainsOf node).map (fun c => name.data :: c) else [])
      ++ chainsIn rest
end

/-- Where the operating system goes on when it meets, in directory `linkDir`, a
symbolic link with this target: an absolute target replaces the path walked so
far, a relative one is taken from the directory of the link. -/
def followLink (linkDir target : String) : String :=
  if IsAbs target = true then target else linkDir ++ "/" ++ target

/-- A path as the operating system takes it when the working directory is
`cwd`: an absolute path as it is, a relative one from `cwd`. -/
def resolvePath (cwd path : String) : String :=
  if IsAbs path = true then path else cwd ++ "/" ++ path

/-- The stored paths are absolute, and a link that was not there at the start
has an absolute target that is one of the stored paths. -/
def AbsInv (fs0 : FS) (st : State) : Prop :=
  (∀ r ∈ st.index, IsAbs r.2 = true)
    ∧ ∀ q target, st.fs q = some (.symlink target) →
        fs0 q = some (.symlink target)
        ∨ (IsAbs target = true ∧ ∃ h, (h, target) ∈ st.index)

/-! ## Two `dbWorker` goroutines -/

/-- Where a `dbWorker` is inside one iteration of its loop: before the query,
after the `Scan` (with the value of `originalFilePath`), after a successful
`os.Remove`, or done with the record. -/
inductive WorkerPc where
  | query
  | decided (originalFilePath : String)
  | removed (originalFilePath : String)
  | finished
deriving DecidableEq, Repr

/-- The iteration of `dbWorker` for one record, one call on the shared state at
a time: the query; then `os.Remove` or the insert; then `os.Symlink`. -/
def workerStep (flt : Faults) (fileOp : FileOp) : WorkerPc → State → WorkerPc × State
  | .query, s =>
    match queryRow flt.query s.index fileOp.Hash with
    | .err => (.finished, s)
    | r => (.decided (scanned r), s)
  | .decided originalFilePath, s =>
    if originalFilePath ≠ "" ∧ originalFilePath ≠ fileOp.Path then
      match osRemove flt.remove s.fs fileOp.Path with
      | none => (.finished, s)
      | some fs1 => (.removed originalFilePath, { s with fs := fs1 })
    else if originalFilePath = "" then
      match dbInsert flt.insert s.index fileOp.Hash fileOp.Path with
      | none => (.finished, s)
      | some idx => (.finished, { s with index := idx })
    else (.finished, s)
  | .removed originalFilePath, s =>
    match osSymlink flt.symlink s.fs originalFilePath fileOp.Path with
    | none => (.finished, s)
    | some fs2 => (.finished, { s with fs := fs2 })
  | .finished, s => (.finished, s)

/-- One worker making its three calls without the other in between. -/
def workerSolo (flt : Faults) (op : FileOp) (s : State) : WorkerPc × State :=
  let a := workerStep flt op .query s
  let b := workerStep flt op a.1 a.2
  workerStep flt op b.1 b.2

/-- Two workers, each with one record, on the same table and file system. -/
structure Duo where
  pc1 : WorkerPc
  pc2 : WorkerPc
  st : State

/-- The scheduler lets the first (`false`) or the second (`true`) worker make
its next call. -/
def duoStep (flt1 flt2 : Faults) (op1 op2 : FileOp) (second : Bool) (d : Duo) : Duo :=
  if second = true then
    { d with pc2 := (workerStep flt2 op2 d.pc2 d.st).1, st := (workerStep flt2 op2 d.pc2 d.st).2 }
  else
    { d with pc1 := (workerStep flt1 op1 d.pc1 d.st).1, st := (workerStep flt1 op1 d.pc1 d.st).2 }

/-- The two workers under an interleaving. -/
def duoRun (flt1 flt2 : Faults) (op1 op2 : FileOp) : List Bool → Duo → Duo
  | [], d => d
  | b :: rest, d => duoRun flt1 flt2 op1 op2 rest (duoStep flt1 flt2 op1 op2 b d)

/-- What two workers with the same fingerprint `h`, paths `p1` and `p2`, can
have reached from a table `idx` without row for `h` and a file system `fs`. -/
def DuoInv (idx : Index) (fs : FS) (h p1 p2 : String) (d : Duo) : Prop :=
  match d.pc1, d.pc2 with
  | .query, .query => d.st.index = idx ∧ d.st.fs = fs
  | .query, .decided o2 => o2 = "" ∧ d.st.index = idx ∧ d.st.fs = fs
  | .decided o1, .query => o1 = "" ∧ d.st.index = idx ∧ d.st.fs = fs
  | .decided o1, .decided o2 => o1 = "" ∧ o2 = "" ∧ d.st.index = idx ∧ d.st.fs = fs
  | .finished, .query => d.st.index = idx ++ [(h, p1)] ∧ d.st.fs = fs
  | .query, .finished => d.st.index = idx ++ [(h, p2)] ∧ d.st.fs = fs
  | .finished, .decided o2 =>
    (o2 = "" ∨ o2 = p1) ∧ d.st.index = idx ++ [(h, p1)] ∧ d.st.fs = fs
  | .decided o1, .finished =>
    (o1 = "" ∨ o1 = p2) ∧ d.st.index = idx ++ [(h, p2)] ∧ d.st.fs = fs
  | .finished, .removed o2 =>
    o2 = p1 ∧ d.st.index = idx ++ [(h, p1)] ∧ d.st.fs = fun q => if q = p2 then none else fs q
  | .removed o1, .finished =>
    o1 = p2 ∧ d.st.index = idx ++ [(h, p2)] ∧ d.st.fs = fun q => if q = p1 then none else fs q
  | .finished, .finished =>
    (d.st.index = idx ++ [(h, p1)] ∧ ∀ q, q ≠ p2 → d.st.fs q = fs q)
    ∨ (d.st.index = idx ++ [(h, p2)] ∧ ∀ q, q ≠ p1 → d.st.fs q = fs q)
    ∨ (d.st.index = idx ++ [(h, p1), (h, p2)] ∧ d.st.fs = fs)
    ∨ (d.st.index = idx ++ [(h, p2), (h, p1)] ∧ d.st.fs = fs)
  | _, _ => False

/-! ## The pipeline, one record at a time -/

/-- The store file `file_hashes.db`, which `sql.Open` opens in the working
directory: the path under which the traversal meets it when the root contains
the working directory, and the bytes of the file for a table. -/
structure StoreFile where
  path : String
  bytes : Index → List UInt8

/-- The function `processFile`: the record sent on `fileOpChan`, or nothing
when `sha256File` fails.  `file` gives, for a state of the file system and a
path, what `os.Open` and the successive reads return. -/
def processFile (digest : List UInt8 → List UInt8)
    (file : FS → String → Option (List ReadResult)) (fs : FS) (filePath : String) :
    Option FileOp :=
  match sha256File digest (file fs filePath) with
  | .ok fileHash => some { Path := filePath, Hash := fileHash }
  | _ => none

/-- The store file after one iteration of `dbWorker`: an insert rewrites the
file, which then holds the bytes of the new table. -/
def storeWrite (store : StoreFile) (before after : State) : State :=
  if after.index = before.index then after
  else
    { after with
      fs := fun q =>
        if q = store.path then some (.regular (store.bytes after.index)) else after.fs q }

/-- One path through the pipeline: hashed by a `fileWorker`, then resolved by a
`dbWorker`, with no failure of the store or of the file system calls. -/
def pipelineStep (digest : List UInt8 → List UInt8)
    (file : FS → String → Option (List ReadResult)) (store : StoreFile)
    (st : State) (filePath : String) : State :=
  match processFile digest file st.fs filePath with
  | none => st
  | some fileOp => storeWrite store st (dbWorkerStep noFaults fileOp st)

/-- A run over the paths the traversal sends, in the order they are resolved. -/
def pipeline (digest : List UInt8 → List UInt8)
    (file : FS → String → Option (List ReadResult)) (store : StoreFile)
    (paths : List String) (st : State) : State :=
  paths.foldl (pipelineStep digest file store) st

/-- The traversal sends the regular files under the root, each once, in some
order; `under` tells which paths lie under the root. -/
def Emits (under : String → Bool) (fs : FS) (paths : List String) : Prop :=
  paths.Nodup ∧ ∀ p, p ∈ paths ↔ under p = true ∧ ∃ c, osLstat fs p = some (.regular c)

/-- No I/O error: every regular file can be opened and read to its end, in
chunks of some sizes. -/
def Readable (file : FS → String → Option (List ReadResult)) : Prop :=
  ∀ fs p c, osLstat fs p = some (.regular c) → ∃ reads, file fs p = some reads ∧ Chunking c reads

/-- The directory a path lies in (`filepath.Dir`, on a clean path). -/
def dirOf (path : String) : String :=
  match (splitSlash path.data).dropLast with
  | [] => "."
  | elems => if joinSlash elems = [] then "/" else String.mk (joinSlash elems)

/-- The path a symbolic link at `linkPath` with this target points at. -/
def linkDestination (linkPath target : String) : String :=
  followLink (dirOf linkPath) target

/-- State of a run after the paths `done` have been resolved, from the file
system `fs0` and the empty table. -/
structure RunInv (digest : List UInt8 → List UInt8) (store : StoreFile) (fs0 : FS)
    (done : List String) (st : State) : Prop where
  keys : (st.index.map Prod.fst).Nodup
  canon : ∀ h p, (h, p) ∈ st.index →
    p ∈ done ∧ ∃ c, osLstat st.fs p = some (.regular c) ∧ fingerprintSpec digest c = h
  doneOk : ∀ p ∈ done,
    (∃ t h, st.fs p = some (.symlink t) ∧ (h, t) ∈ st.index)
    ∨ (∃ c, st.fs p = some (.regular c) ∧ (fingerprintSpec digest c, p) ∈ st.index)
  notStore : ∀ p ∈ done, p ≠ store.path
  rest : ∀ p, p ∉ done → p ≠ store.path → st.fs p = fs0 p
  links : ∀ q t, st.fs q = some (.symlink t) →
    fs0 q = some (.symlink t) ∨ ∃ h, (h, t) ∈ st.index
  regs : ∀ p c, p ≠ store.path → st.fs p = some (.regular c) → fs0 p = some (.regular c)

/-- Reading a regular file one byte at a time, then the end of the file. -/
def readByByte : FS → String → Option (List ReadResult) :=
  fun fs p =>
    match osLstat fs p with
    | some (.regular c) => some (c.map (fun b => ⟨[b], .nil⟩) ++ [⟨[], .eof⟩])
    | _ => none

/-- A store file whose bytes are a mark followed by the characters of the rows. -/
def rowsStore : StoreFile :=
  { path := "file_hashes.db"
    bytes := fun idx =>
      83 :: idx.flatMap (fun r => (r.1.data ++ r.2.data).map (fun ch => UInt8.ofNat ch.toNat)) }

/-- A file system with two regular files of the same content. -/
def twoFiles : FS :=
  fun q => if q = "/r/a" ∨ q = "/r/b" then some (.regular [104]) else none

/-- A file system with one regular file and the store file of the empty table. -/
def fileAndStore : FS :=
  fun q =>
    if q = "a" then some (.regular [104])
    else if q = "file_hashes.db" then some (.regular (rowsStore.bytes []))
    else none

/-- A file system with three regular files of the same content, one of them at
the path that `r/a/x` names from the directory `r/b`. -/
def threeFiles : FS :=
  fun q => if q = "r/a/x" ∨ q = "r/b/y" ∨ q = "r/b/r/a/x" then some (.regular [104]) else none

/-! ## Theorems -/

theorem firstRow_eq_none_iff (h : String) (idx : Index) :
    firstRow h idx = none ↔ ∀ r ∈ idx, r.1 ≠ h := by
  induction idx with
  | nil => simp [firstRow]
  | cons r rest ih =>
    obtain ⟨k, v⟩ := r
    by_cases hk : k = h
    · simp [firstRow, hk]
    · simp [firstRow, hk, ih]

theorem firstRow_append (h : String) (a b : Index) :
    firstRow h (a ++ b) = (firstRow h a).orElse (fun _ => firstRow h b) := by
  induction a with
  | nil => simp [firstRow]
  | cons r rest ih =>
    obtain ⟨k, v⟩ := r
    by_cases hk : k = h
    · simp [firstRow, hk]
    · simp [firstRow, hk, ih]

/-- Claim C1.  Duplicate case of the resolver: when the lookup of the record's
fingerprint returns a stored path `c` different from the record's path `p`, and
`os.Remove(p)` and `os.Symlink(c, p)` both succeed, one iteration of the
`dbWorker` loop leaves `p` a symbolic link with target exactly `c`, leaves the
table as it was, and leaves every other path of the file system as it was. -/
theorem dbWorkerStep_duplicate (flt : Faults) (fileOp : FileOp) (s : State) (c : String)
    (fs1 fs2 : FS)
    (hq : queryRow flt.query s.index fileOp.Hash = .ok c)
    (hne : c ≠ fileOp.Path)
    (hrm : osRemove flt.remove s.fs fileOp.Path = some fs1)
    (hln : osSymlink flt.symlink fs1 c fileOp.Path = some fs2) :
    (dbWorkerStep flt fileOp s).fs fileOp.Path = some (.symlink c)
    ∧ (dbWorkerStep flt fileOp s).index = s.index
    ∧ ∀ q, q ≠ fileOp.Path → (dbWorkerStep flt fileOp s).fs q = s.fs q := by
  have hc : c ≠ "" := by
    intro h0
    simp [osSymlink, h0] at hln
  have hfs : (dbWorkerStep flt fileOp s) = { s with fs := fs2 } := by
    simp [dbWorkerStep, hq, scanned, hc, hne, hrm, hln]
  rw [hfs]
  simp only [osRemove] at hrm
  simp only [osSymlink] at hln
  split at hrm
  · simp at hrm
  · split at hrm
    · simp at hrm
    · split at hln
      · simp at hln
      · split at hln
        · simp at hln
        · simp only [Option.some.injEq] at hrm hln
          subst hrm
          subst hln
          refine ⟨by simp, rfl, ?_⟩
          intro q hqp
          simp [hqp]

/-- Claim C2.  Self-canonical case of the resolver: for every record `dbWorker`
can receive (its path was built by `filepath.Join` and opened by `processFile`,
so it is not the empty string, see `reachable_ne_empty`), when the lookup of the
record's fingerprint returns the record's own path, one iteration of the
`dbWorker` loop changes nothing: the file is not deleted, no path of the file
system changes, and the table is as it was. -/
theorem dbWorkerStep_self (flt : Faults) (fileOp : FileOp) (s : State)
    (hq : queryRow flt.query s.index fileOp.Hash = .ok fileOp.Path)
    (hp : fileOp.Path ≠ "") :
    dbWorkerStep flt fileOp s = s
    ∧ (dbWorkerStep flt fileOp s).fs fileOp.Path = s.fs fileOp.Path
    ∧ (∀ q, (dbWorkerStep flt fileOp s).fs q = s.fs q)
    ∧ (dbWorkerStep flt fileOp s).index = s.index := by
  have h : dbWorkerStep flt fileOp s = s := by
    simp [dbWorkerStep, hq, scanned, hp]
  simp [h]

theorem dbWorkerStep_self_witness :
    dbWorkerStep noFaults ⟨"a/x", "h"⟩ ⟨[("h", "a/x")], fun _ => none⟩
      = ⟨[("h", "a/x")], fun _ => none⟩
    ∧ (dbWorkerStep noFaults ⟨"a/x", "h"⟩ ⟨[("h", "a/x")], fun _ => none⟩).fs "a/x" = none
    ∧ (∀ q, (dbWorkerStep noFaults ⟨"a/x", "h"⟩ ⟨[("h", "a/x")], fun _ => none⟩).fs q = none)
    ∧ (dbWorkerStep noFaults ⟨"a/x", "h"⟩ ⟨[("h", "a/x")], fun _ => none⟩).index
        = [("h", "a/x")] :=
  dbWorkerStep_self noFaults ⟨"a/x", "h"⟩ ⟨[("h", "a/x")], fun _ => none⟩
    (by decide) (by decide)

/-- Claim C3.  Absent case of the resolver: when the table has no row for the
record's fingerprint and neither the query nor the insert fails, one iteration
of the `dbWorker` loop appends exactly the row (fingerprint, path), keeps every
row that was there, so that the lookup of any other fingerprint is as before
and the lookup of this one now gives the path, and leaves the file system as it
was. -/
theorem dbWorkerStep_absent (flt : Faults) (fileOp : FileOp) (s : State)
    (habs : ∀ r ∈ s.index, r.1 ≠ fileOp.Hash)
    (hqf : flt.query = false) (hif : flt.insert = false) :
    (dbWorkerStep flt fileOp s).index = s.index ++ [(fileOp.Hash, fileOp.Path)]
    ∧ rowsFor fileOp.Hash (dbWorkerStep flt fileOp s).index = [(fileOp.Hash, fileOp.Path)]
    ∧ firstRow fileOp.Hash (dbWorkerStep flt fileOp s).index = some fileOp.Path
    ∧ (∀ h, h ≠ fileOp.Hash →
        rowsFor h (dbWorkerStep flt fileOp s).index = rowsFor h s.index
        ∧ firstRow h (dbWorkerStep flt fileOp s).index = firstRow h s.index)
    ∧ (dbWorkerStep flt fileOp s).fs = s.fs := by
  have hnone : firstRow fileOp.Hash s.index = none := (firstRow_eq_none_iff _ _).2 habs
  have hstep : dbWorkerStep flt fileOp s
      = { s with index := s.index ++ [(fileOp.Hash, fileOp.Path)] } := by
    simp [dbWorkerStep, queryRow, hqf, hnone, scanned, dbInsert, hif]
  rw [hstep]
  refine ⟨rfl, ?_, ?_, ?_, rfl⟩
  · have : List.filter (fun r : String × String => decide (r.1 = fileOp.Hash)) s.index = [] := by
      rw [List.filter_eq_nil_iff]
      intro r hr
      simpa using habs r hr
    simp [rowsFor, List.filter_append, this]
  · simp [firstRow_append, hnone, firstRow]
  · intro h hh
    constructor
    · simp [rowsFor, List.filter_append, List.filter_cons, Ne.symm hh]
    · simp [firstRow_append, firstRow, Ne.symm hh]

theorem dbWorkerStep_absent_witness :
    (dbWorkerStep noFaults ⟨"a/x", "h"⟩ ⟨[("g", "c/z")], fun _ => none⟩).index
      = [("g", "c/z")] ++ [("h", "a/x")]
    ∧ rowsFor "h" (dbWorkerStep noFaults ⟨"a/x", "h"⟩ ⟨[("g", "c/z")], fun _ => none⟩).index
      = [("h", "a/x")]
    ∧ firstRow "h" (dbWorkerStep noFaults ⟨"a/x", "h"⟩ ⟨[("g", "c/z")], fun _ => none⟩).index
      = some "a/x"
    ∧ (∀ h, h ≠ "h" →
        rowsFor h (dbWorkerStep noFaults ⟨"a/x", "h"⟩ ⟨[("g", "c/z")], fun _ => none⟩).index
          = rowsFor h [("g", "c/z")]
        ∧ firstRow h (dbWorkerStep noFaults ⟨"a/x", "h"⟩ ⟨[("g", "c/z")], fun _ => none⟩).index
          = firstRow h [("g", "c/z")])
    ∧ (dbWorkerStep noFaults ⟨"a/x", "h"⟩ ⟨[("g", "c/z")], fun _ => none⟩).fs = fun _ => none :=
  dbWorkerStep_absent noFaults ⟨"a/x", "h"⟩ ⟨[("g", "c/z")], fun _ => none⟩
    (by decide) rfl rfl

theorem dbWorkerStep_duplicate_witness :
    (dbWorkerStep noFaults ⟨"b/y", "h"⟩
        ⟨[("h", "a/x")], fun q => if q = "b/y" then some (.regular []) else none⟩).fs "b/y"
      = some (.symlink "a/x")
    ∧ (dbWorkerStep noFaults ⟨"b/y", "h"⟩
        ⟨[("h", "a/x")], fun q => if q = "b/y" then some (.regular []) else none⟩).index
      = [("h", "a/x")]
    ∧ ∀ q, q ≠ "b/y" →
        (dbWorkerStep noFaults ⟨"b/y", "h"⟩
          ⟨[("h", "a/x")], fun q => if q = "b/y" then some (.regular []) else none⟩).fs q
        = if q = "b/y" then some (.regular []) else none :=
  dbWorkerStep_duplicate noFaults ⟨"b/y", "h"⟩
    ⟨[("h", "a/x")], fun q => if q = "b/y" then some (.regular []) else none⟩ "a/x"
    (fun q => if q = "b/y" then none
      else (fun q => if q = "b/y" then some (.regular []) else none) q)
    (fun q => if q = "b/y" then some (.symlink "a/x")
      else (fun q => if q = "b/y" then none
        else (fun q => if q = "b/y" then some (.regular []) else none) q) q)
    (by decide) (by decide) (by simp [osRemove, osLstat, noFaults])
    (by simp [osSymlink, noFaults])

/-! ### The table after a sequence of records -/

theorem firstRow_some_mem {h v : String} {idx : Index} (hv : firstRow h idx = some v) :
    (h, v) ∈ idx := by
  induction idx with
  | nil => simp [firstRow] at hv
  | cons r rest ih =>
    obtain ⟨k, w⟩ := r
    by_cases hk : k = h
    · simp [firstRow, hk] at hv
      simp [hk, hv]
    · simp [firstRow, hk] at hv
      exact List.mem_cons_of_mem _ (ih hv)

theorem rowsFor_eq_nil_iff (h : String) (idx : Index) :
    rowsFor h idx = [] ↔ firstRow h idx = none := by
  rw [firstRow_eq_none_iff, rowsFor, List.filter_eq_nil_iff]
  constructor
  · intro H r hr
    simpa using H r hr
  · intro H r hr
    simpa using H r hr

/-- With a working store and no empty path in sight, an iteration of the loop
acts on the table as insert-if-absent, whatever happens on the file system. -/
theorem dbWorkerStep_index (flt : Faults) (op : FileOp) (s : State)
    (hqf : flt.query = false) (hif : flt.insert = false) (hp : op.Path ≠ "")
    (hidx : ∀ r ∈ s.index, r.2 ≠ "") :
    (dbWorkerStep flt op s).index = insertIfAbsent s.index op := by
  cases hfr : firstRow op.Hash s.index with
  | none =>
    simp [dbWorkerStep, queryRow, hqf, hfr, scanned, dbInsert, hif, insertIfAbsent]
  | some v =>
    have hv : v ≠ "" := hidx _ (firstRow_some_mem hfr)
    by_cases hvp : v = op.Path
    · simp [dbWorkerStep, queryRow, hqf, hfr, scanned, insertIfAbsent, hvp, hp]
    · simp only [dbWorkerStep, queryRow, hqf, hfr, scanned, insertIfAbsent]
      simp only [Bool.false_eq_true, if_false, ne_eq, hv, not_false_eq_true, hvp, and_self,
        if_true]
      split
      · rfl
      · split <;> rfl

theorem insertIfAbsent_paths (idx : Index) (op : FileOp) (hp : op.Path ≠ "")
    (hidx : ∀ r ∈ idx, r.2 ≠ "") : ∀ r ∈ insertIfAbsent idx op, r.2 ≠ "" := by
  unfold insertIfAbsent
  cases firstRow op.Hash idx with
  | some v => simpa using hidx
  | none =>
    intro r hr
    simp only [List.mem_append, List.mem_singleton] at hr
    rcases hr with hr | hr
    · exact hidx r hr
    · subst hr
      exact hp

theorem dbWorkerRun_index (steps : List (Faults × FileOp)) (s : State)
    (hstore : ∀ x ∈ steps, x.1.query = false ∧ x.1.insert = false)
    (hpaths : ∀ x ∈ steps, x.2.Path ≠ "")
    (hidx : ∀ r ∈ s.index, r.2 ≠ "") :
    (dbWorkerRun steps s).index = (steps.map Prod.snd).foldl insertIfAbsent s.index := by
  induction steps generalizing s with
  | nil => rfl
  | cons x rest ih =>
    obtain ⟨flt, op⟩ := x
    have h1 := hstore (flt, op) (List.mem_cons_self _ _)
    have h2 : op.Path ≠ "" := hpaths (flt, op) (List.mem_cons_self _ _)
    have hstep := dbWorkerStep_index flt op s h1.1 h1.2 h2 hidx
    simp only [dbWorkerRun, List.map_cons, List.foldl_cons]
    rw [ih (dbWorkerStep flt op s)
      (fun x hx => hstore x (List.mem_cons_of_mem _ hx))
      (fun x hx => hpaths x (List.mem_cons_of_mem _ hx))
      (by rw [hstep]; exact insertIfAbsent_paths _ _ h2 hidx), hstep]

/-- The rows of one fingerprint after a fold of insert-if-absent. -/
theorem rowsFor_foldl_insertIfAbsent (h : String) (ops : List FileOp) (idx : Index) :
    rowsFor h (ops.foldl insertIfAbsent idx)
      = if firstRow h idx = none then
          (match firstPath h ops with
            | some p => [(h, p)]
            | none => [])
        else rowsFor h idx := by
  induction ops generalizing idx with
  | nil =>
    simp only [List.foldl_nil, firstPath]
    split
    · rwa [rowsFor_eq_nil_iff]
    · rfl
  | cons op rest ih =>
    simp only [List.foldl_cons]
    rw [ih]
    cases hfr : firstRow op.Hash idx with
    | some v =>
      have hins : insertIfAbsent idx op = idx := by simp [insertIfAbsent, hfr]
      rw [hins]
      by_cases hn : firstRow h idx = none
      · have hne : op.Hash ≠ h := by
          intro e
          rw [e, hn] at hfr
          cases hfr
        simp [hn, firstPath, hne]
      · simp [hn]
    | none =>
      have hins : insertIfAbsent idx op = idx ++ [(op.Hash, op.Path)] := by
        simp [insertIfAbsent, hfr]
      rw [hins]
      by_cases he : op.Hash = h
      · subst he
        have hnil : rowsFor op.Hash idx = [] := (rowsFor_eq_nil_iff _ _).2 hfr
        have hr : rowsFor op.Hash (idx ++ [(op.Hash, op.Path)]) = [(op.Hash, op.Path)] := by
          have := hnil
          simp only [rowsFor] at this ⊢
          simp [List.filter_append, this]
        simp [firstRow_append, hfr, firstRow, firstPath, hr]
      · have h1 : firstRow h (idx ++ [(op.Hash, op.Path)]) = firstRow h idx := by
          simp [firstRow_append, firstRow, he]
        have h2 : rowsFor h (idx ++ [(op.Hash, op.Path)]) = rowsFor h idx := by
          simp [rowsFor, List.filter_append, List.filter_cons, he]
        simp [h1, h2, firstPath, he]

theorem firstPath_eq_none_iff (h : String) (ops : List FileOp) :
    firstPath h ops = none ↔ h ∉ ops.map FileOp.Hash := by
  induction ops with
  | nil => simp [firstPath]
  | cons op rest ih =>
    by_cases he : op.Hash = h
    · simp [firstPath, he]
    · simp only [firstPath, he, if_false, ih, List.map_cons, List.mem_cons, not_or]
      constructor
      · intro H
        exact ⟨fun e => he e.symm, H⟩
      · intro H
        exact H.2

theorem keys_nodup_foldl_insertIfAbsent (ops : List FileOp) (idx : Index)
    (hnd : (idx.map Prod.fst).Nodup) :
    ((ops.foldl insertIfAbsent idx).map Prod.fst).Nodup := by
  induction ops generalizing idx with
  | nil => simpa using hnd
  | cons op rest ih =>
    simp only [List.foldl_cons]
    apply ih
    unfold insertIfAbsent
    cases hfr : firstRow op.Hash idx with
    | some v => simpa using hnd
    | none =>
      have hno := (firstRow_eq_none_iff _ _).1 hfr
      simp only [List.map_append, List.map_cons, List.map_nil]
      rw [List.nodup_append]
      refine ⟨hnd, List.nodup_singleton _, ?_⟩
      intro a ha hb
      simp only [List.mem_singleton] at hb
      subst hb
      obtain ⟨r, hr, hra⟩ := List.mem_map.1 ha
      exact hno r hr hra

/-- Claim C6.  For every finite sequence of records `dbWorker` can receive
(their paths were built by `filepath.Join` and opened by `processFile`, so none
is the empty string, see `reachable_ne_empty`) with pairwise distinct paths,
resolved one at a time by the `dbWorker` loop from an empty table with a
working store (the file system calls may fail or not), the final table has
exactly one row for each fingerprint that occurs in the sequence and no other
row, and the path stored for a fingerprint is the path of the first record
carrying it. -/
theorem dbWorkerRun_first_canonical (steps : List (Faults × FileOp)) (fs : FS)
    (hstore : ∀ x ∈ steps, x.1.query = false ∧ x.1.insert = false)
    (_hdistinct : (steps.map (fun x => x.2.Path)).Nodup)
    (hpaths : ∀ x ∈ steps, x.2.Path ≠ "") :
    ((dbWorkerRun steps ⟨[], fs⟩).index.map Prod.fst).Nodup
    ∧ (∀ h, h ∈ (dbWorkerRun steps ⟨[], fs⟩).index.map Prod.fst
          ↔ h ∈ steps.map (fun x => x.2.Hash))
    ∧ (∀ h p, (h, p) ∈ (dbWorkerRun steps ⟨[], fs⟩).index
          ↔ firstPath h (steps.map Prod.snd) = some p)
    ∧ (∀ h, rowsFor h (dbWorkerRun steps ⟨[], fs⟩).index
          = match firstPath h (steps.map Prod.snd) with
            | some p => [(h, p)]
            | none => [])
    ∧ (dbWorkerRun steps ⟨[], fs⟩).index.length
          = ((steps.map (fun x => x.2.Hash)).dedup).length := by
  have hrun := dbWorkerRun_index steps ⟨[], fs⟩ hstore hpaths (by simp)
  simp only at hrun
  have hrows : ∀ h, rowsFor h (dbWorkerRun steps ⟨[], fs⟩).index
      = match firstPath h (steps.map Prod.snd) with
        | some p => [(h, p)]
        | none => [] := by
    intro h
    rw [hrun, rowsFor_foldl_insertIfAbsent]
    simp [firstRow]
  have hmem : ∀ h p, (h, p) ∈ (dbWorkerRun steps ⟨[], fs⟩).index
      ↔ firstPath h (steps.map Prod.snd) = some p := by
    intro h p
    have h1 : (h, p) ∈ (dbWorkerRun steps ⟨[], fs⟩).index
        ↔ (h, p) ∈ rowsFor h (dbWorkerRun steps ⟨[], fs⟩).index := by
      simp [rowsFor, List.mem_filter]
    rw [h1, hrows]
    cases firstPath h (steps.map Prod.snd) with
    | none => simp
    | some p1 =>
      simp only [List.mem_singleton, Prod.mk.injEq, true_and, Option.some.injEq]
      exact eq_comm
  have hkeys : ∀ h, h ∈ (dbWorkerRun steps ⟨[], fs⟩).index.map Prod.fst
      ↔ h ∈ steps.map (fun x => x.2.Hash) := by
    intro h
    have hmap : steps.map (fun x => x.2.Hash) = (steps.map Prod.snd).map FileOp.Hash := by
      simp [List.map_map, Function.comp_def]
    rw [hmap]
    constructor
    · intro hh
      obtain ⟨r, hr, hrh⟩ := List.mem_map.1 hh
      obtain ⟨k, p⟩ := r
      simp only at hrh
      subst hrh
      have := (hmem k p).1 hr
      by_contra hc
      rw [(firstPath_eq_none_iff _ _).2 hc] at this
      cases this
    · intro hh
      cases hfp : firstPath h (steps.map Prod.snd) with
      | none => exact absurd hh ((firstPath_eq_none_iff _ _).1 hfp)
      | some p => exact List.mem_map.2 ⟨(h, p), (hmem h p).2 hfp, rfl⟩
  have hnd : ((dbWorkerRun steps ⟨[], fs⟩).index.map Prod.fst).Nodup := by
    rw [hrun]
    exact keys_nodup_foldl_insertIfAbsent _ _ (by simp)
  refine ⟨hnd, hkeys, hmem, hrows, ?_⟩
  have hperm : List.Perm ((dbWorkerRun steps ⟨[], fs⟩).index.map Prod.fst)
      ((steps.map (fun x => x.2.Hash)).dedup) := by
    rw [List.perm_ext_iff_of_nodup hnd (List.nodup_dedup _)]
    intro h
    rw [hkeys, List.mem_dedup]
  simpa using hperm.length_eq

theorem dbWorkerRun_first_canonical_witness :
    ((dbWorkerRun [(noFaults, ⟨"a/x.txt", "h-hello"⟩), (noFaults, ⟨"b/y.txt", "h-hello"⟩),
        (noFaults, ⟨"c/z.txt", "h-world"⟩)] ⟨[], fun _ => none⟩).index.map Prod.fst).Nodup
    ∧ (dbWorkerRun [(noFaults, ⟨"a/x.txt", "h-hello"⟩), (noFaults, ⟨"b/y.txt", "h-hello"⟩),
        (noFaults, ⟨"c/z.txt", "h-world"⟩)] ⟨[], fun _ => none⟩).index.length = 2 := by
  have h := dbWorkerRun_first_canonical
    [(noFaults, ⟨"a/x.txt", "h-hello"⟩), (noFaults, ⟨"b/y.txt", "h-hello"⟩),
      (noFaults, ⟨"c/z.txt", "h-world"⟩)] (fun _ => none)
    (by decide) (by decide) (by decide)
  refine ⟨h.1, ?_⟩
  rw [h.2.2.2.2]
  decide

/-! ### `sha256File` -/

theorem readLoop_append_eof (digest : List UInt8 → List UInt8) (body : List ReadResult)
    (last : ReadResult) (rest : List ReadResult) (hasher : List UInt8)
    (hbody : ∀ r ∈ body, r.err = .nil) (hlast : last.err = .eof)
    (hsize : ∀ r ∈ body ++ [last], r.data.length ≤ BufferSize) :
    readLoop digest hasher (body ++ [last] ++ rest)
      = .ok (hexEncode (digest (hasher ++ ((body ++ [last]).map ReadResult.data).flatten))) := by
  induction body generalizing hasher with
  | nil =>
    have hs : ¬ BufferSize < last.data.length := by
      have := hsize last (by simp)
      omega
    simp only [List.nil_append, List.singleton_append, readLoop, hs, if_false, hlast, if_true,
      List.map_cons, List.map_nil, List.flatten_cons, List.flatten_nil, List.append_nil]
    by_cases h0 : 0 < last.data.length
    · simp [h0]
    · have : last.data = [] := List.length_eq_zero.1 (by omega)
      simp [this]
  | cons r body ih =>
    have hs : ¬ BufferSize < r.data.length := by
      have := hsize r (by simp)
      omega
    have hr : r.err = .nil := hbody r (List.mem_cons_self _ _)
    have ih1 := fun hasher => ih hasher (fun x hx => hbody x (List.mem_cons_of_mem _ hx))
      (fun x hx => hsize x (by
        simp only [List.cons_append, List.mem_cons]
        exact Or.inr hx))
    simp only [List.cons_append]
    simp only [readLoop, hs, if_false, hr, ne_eq, not_true_eq_false,
      List.map_cons, List.flatten_cons]
    have hne : ¬ (ReadErr.nil = ReadErr.eof) := by decide
    simp only [hne, if_false]
    by_cases h0 : 0 < r.data.length
    · simp only [h0, if_true]
      have := ih1 (hasher ++ r.data)
      simp only [List.append_assoc, List.cons_append, List.nil_append] at this ⊢
      rw [this]
    · have hnil : r.data = [] := List.length_eq_zero.1 (by omega)
      simp only [h0, if_false, hnil, List.nil_append]
      have := ih1 hasher
      simp only [List.append_assoc, List.cons_append, List.nil_append] at this ⊢
      simpa using this

theorem readLoop_append_error (digest : List UInt8 → List UInt8) (body : List ReadResult)
    (bad : ReadResult) (rest : List ReadResult) (hasher : List UInt8)
    (hbody : ∀ r ∈ body, r.err = .nil) (hbad : bad.err = .other)
    (hsize : ∀ r ∈ body ++ [bad], r.data.length ≤ BufferSize) :
    readLoop digest hasher (body ++ [bad] ++ rest) = .error := by
  induction body generalizing hasher with
  | nil =>
    have hs : ¬ BufferSize < bad.data.length := by
      have := hsize bad (by simp)
      omega
    simp [readLoop, hs, hbad]
  | cons r body ih =>
    have hs : ¬ BufferSize < r.data.length := by
      have := hsize r (by simp)
      omega
    have hr : r.err = .nil := hbody r (List.mem_cons_self _ _)
    have ih1 := fun hasher => ih hasher (fun x hx => hbody x (List.mem_cons_of_mem _ hx))
      (fun x hx => hsize x (by
        simp only [List.cons_append, List.mem_cons]
        exact Or.inr hx))
    simp only [List.cons_append]
    simp only [readLoop, hs, if_false, hr, ne_eq, not_true_eq_false]
    have hne : ¬ (ReadErr.nil = ReadErr.eof) := by decide
    simp only [hne, if_false]
    have := ih1 (if 0 < r.data.length then hasher ++ r.data else hasher)
    simpa using this

theorem hexDigit_lower (n : Nat) (hn : n < 16) : hexDigit n ∈ "0123456789abcdef".data := by
  have : ∀ m : Fin 16, hexDigit m.val ∈ "0123456789abcdef".data := by decide
  exact this ⟨n, hn⟩

theorem hexEncode_lower (bytes : List UInt8) :
    ∀ c ∈ (hexEncode bytes).data, c ∈ "0123456789abcdef".data := by
  intro c hc
  simp only [hexEncode, List.mem_flatMap, List.mem_cons, List.mem_singleton] at hc
  obtain ⟨b, -, hb⟩ := hc
  have hlt : b.toNat < 256 := b.val.isLt
  rcases hb with hb | hb | hb
  · subst hb
    exact hexDigit_lower _ (by omega)
  · subst hb
    exact hexDigit_lower _ (by omega)
  · simp at hb

theorem hexEncode_length (bytes : List UInt8) : (hexEncode bytes).length = 2 * bytes.length := by
  simp only [hexEncode, String.length]
  induction bytes with
  | nil => rfl
  | cons b bs ih =>
    simp only [List.flatMap_cons, List.length_append, List.length_cons, List.length_nil, ih]
    omega

/-- Claim C10.  Fingerprint determinism under chunked streaming: whatever way
the successive reads of `sha256File` split a content into chunks of at most
`BufferSize` bytes (empty reads included, end of file reported with the last
bytes or by a separate read), if no read fails the function returns the
lowercase hexadecimal encoding of the digest of the whole content; so two files
with the same bytes get the same fingerprint; and a read that fails with another
error than end of file, like a failing open, makes the function return an error
and no fingerprint. -/
theorem sha256File_chunking (digest : List UInt8 → List UInt8) :
    (∀ content reads rest, Chunking content reads →
        sha256File digest (some (reads ++ rest)) = .ok (fingerprintSpec digest content)
        ∧ (fingerprintSpec digest content).length = 2 * (digest content).length
        ∧ ∀ c ∈ (fingerprintSpec digest content).data, c ∈ "0123456789abcdef".data)
    ∧ (∀ content reads1 reads2, Chunking content reads1 → Chunking content reads2 →
        sha256File digest (some reads1) = sha256File digest (some reads2))
    ∧ (∀ body bad rest, (∀ r ∈ body, r.err = .nil) → bad.err = .other →
        (∀ r ∈ body ++ [bad], r.data.length ≤ BufferSize) →
        sha256File digest (some (body ++ [bad] ++ rest)) = .error
        ∧ ∀ fp, sha256File digest (some (body ++ [bad] ++ rest)) ≠ .ok fp)
    ∧ sha256File digest none = .error := by
  have key : ∀ content reads rest, Chunking content reads →
      sha256File digest (some (reads ++ rest)) = .ok (fingerprintSpec digest content) := by
    intro content reads rest hch
    obtain ⟨body, last, hreads, hbody, hlast, hsize, hcontent⟩ := hch
    subst hreads
    have := readLoop_append_eof digest body last rest [] hbody hlast hsize
    simp only [List.nil_append] at this
    simp only [sha256File, this, fingerprintSpec, hcontent]
  refine ⟨?_, ?_, ?_, rfl⟩
  · intro content reads rest hch
    exact ⟨key content reads rest hch, hexEncode_length _, hexEncode_lower _⟩
  · intro content reads1 reads2 h1 h2
    have e1 := key content reads1 [] h1
    have e2 := key content reads2 [] h2
    simp only [List.append_nil] at e1 e2
    rw [e1, e2]
  · intro body bad rest hbody hbad hsize
    have := readLoop_append_error digest body bad rest [] hbody hbad hsize
    have e : sha256File digest (some (body ++ [bad] ++ rest)) = .error := this
    rw [e]
    exact ⟨rfl, fun fp h => by cases h⟩

theorem sha256File_chunking_witness :
    sha256File List.reverse
        (some ([⟨[104], .nil⟩, ⟨[], .nil⟩, ⟨[105], .eof⟩] ++ [⟨[33], .nil⟩]))
      = .ok "6968"
    ∧ sha256File List.reverse (some [⟨[104], .nil⟩, ⟨[], .nil⟩, ⟨[105], .eof⟩])
      = sha256File List.reverse (some [⟨[104, 105], .nil⟩, ⟨[], .eof⟩])
    ∧ sha256File List.reverse (some ([⟨[104], .nil⟩] ++ [⟨[105], .other⟩] ++ [])) = .error := by
  have h := sha256File_chunking List.reverse
  have c1 : Chunking [104, 105] [⟨[104], .nil⟩, ⟨[], .nil⟩, ⟨[105], .eof⟩] :=
    ⟨[⟨[104], .nil⟩, ⟨[], .nil⟩], ⟨[105], .eof⟩, rfl, by decide, rfl, by decide, rfl⟩
  have c2 : Chunking [104, 105] [⟨[104, 105], .nil⟩, ⟨[], .eof⟩] :=
    ⟨[⟨[104, 105], .nil⟩], ⟨[], .eof⟩, rfl, by decide, rfl, by decide, rfl⟩
  refine ⟨?_, h.2.1 _ _ _ c1 c2, (h.2.2.1 [⟨[104], .nil⟩] ⟨[105], .other⟩ []
    (by decide) rfl (by decide)).1⟩
  rw [(h.1 [104, 105] _ [⟨[33], .nil⟩] c1).1]
  decide

/-! ### The wait group of the pool -/

theorem taskStep_inv (numWorkers i : Nat) (s s1 : Pool) (hinv : PoolInv numWorkers s)
    (hstep : taskStep i s = some s1) : PoolInv numWorkers s1 := by
  obtain ⟨h1, h2, h3, h4, h5⟩ := hinv
  unfold taskStep at hstep
  cases hget : s.tasks[i]? with
  | none => simp [hget] at hstep
  | some t =>
    have hi : i < s.tasks.length := by
      rw [List.getElem?_eq_some_iff] at hget
      exact hget.1
    have hpos : (1 : Int) ≤ (s.tasks.length : Int) := by omega
    have herase : ((s.tasks.eraseIdx i).length : Int) = (s.tasks.length : Int) - 1 := by
      rw [List.length_eraseIdx, if_pos hi]
      omega
    rw [hget] at hstep
    simp only at hstep
    cases heff : processDirectoryStep t with
    | done =>
      simp only [heff, applyEffect, wgDone] at hstep
      split at hstep
      · cases hstep
      · simp only [Option.some.injEq] at hstep
        subst hstep
        refine ⟨h1, h2, h3, h4, ?_⟩
        simp only [herase, h5]
        omega
    | next t1 =>
      simp only [heff, applyEffect, Option.some.injEq] at hstep
      subst hstep
      exact ⟨h1, h2, h3, h4, by simp only [List.length_set, h5]⟩
    | send filePath t1 =>
      simp only [heff, applyEffect] at hstep
      split at hstep
      · cases hstep
      · simp only [Option.some.injEq] at hstep
        subst hstep
        exact ⟨h1, h2, h3, h4, by simp only [List.length_set, h5]⟩
    | spawn t1 child =>
      simp only [heff, applyEffect, Option.some.injEq] at hstep
      subst hstep
      refine ⟨h1, h2, h3, h4, ?_⟩
      simp only [List.length_append, List.length_set, List.length_singleton, h5]
      push_cast
      omega

theorem poolStep_inv (numWorkers : Nat) (hN : 1 ≤ numWorkers) (a : Action) (s s1 : Pool)
    (hinv : PoolInv numWorkers s) (hstep : poolStep a s = some s1) : PoolInv numWorkers s1 := by
  cases a with
  | task i => exact taskStep_inv numWorkers i s s1 hinv hstep
  | waitReturn =>
    obtain ⟨h1, h2, h3, h4, h5⟩ := hinv
    have hne : s.wg ≠ 0 := by
      rw [h5]
      omega
    simp [poolStep, hne] at hstep
  | closeFileOpChan =>
    obtain ⟨h1, h2, h3, h4, h5⟩ := hinv
    simp [poolStep, h1] at hstep
  | closeFilePathChan =>
    obtain ⟨h1, h2, h3, h4, h5⟩ := hinv
    simp [poolStep, h2] at hstep
  | fileWorkerExit =>
    obtain ⟨h1, h2, h3, h4, h5⟩ := hinv
    simp [poolStep, h3] at hstep
  | dbWorkerExit =>
    obtain ⟨h1, h2, h3, h4, h5⟩ := hinv
    simp [poolStep, h2] at hstep
  | dbWorkerAbort =>
    obtain ⟨h1, h2, h3, h4, h5⟩ := hinv
    simp only [poolStep] at hstep
    split at hstep
    · simp only [Option.some.injEq] at hstep
      subst hstep
      exact ⟨h1, h2, h3, h4, h5⟩
    · cases hstep

theorem poolRun_inv (numWorkers : Nat) (hN : 1 ≤ numWorkers) (sched : List Action)
    (s s1 : Pool) (hinv : PoolInv numWorkers s) (hrun : poolRun sched s = some s1) :
    PoolInv numWorkers s1 := by
  induction sched generalizing s with
  | nil =>
    simp only [poolRun, Option.some.injEq] at hrun
    subst hrun
    exact hinv
  | cons a rest ih =>
    simp only [poolRun] at hrun
    cases hstep : poolStep a s with
    | none => simp [hstep] at hrun
    | some s2 =>
      rw [hstep] at hrun
      exact ih s2 (poolStep_inv numWorkers hN a s s2 hinv hstep) hrun

/-- Claim C5, what the code does instead.  For every directory tree and every
number of workers `numWorkers ≥ 1`, in every state the pool started by
`newWorkerPool` can reach, `wp.wg.Wait()` has not returned and neither channel
is closed: the counter of the wait group stays at least `numWorkers`, because
the workers call `Done` only after their channel is closed and `Wait` closes
the channels only after the counter has reached zero.  Once the traversal is
over, no step is left but a `dbWorker` giving up: the run never terminates. -/
theorem wait_never_returns (numWorkers : Nat) (hN : 1 ≤ numWorkers) (rootDir : String)
    (root : Tree) (sched : List Action) (s : Pool)
    (hrun : poolRun sched (newWorkerPool numWorkers rootDir root) = some s) :
    ¬ Terminated s
    ∧ s.waitReturned = false ∧ s.fileOpChanClosed = false ∧ s.filePathChanClosed = false
    ∧ s.fileWorkers = numWorkers
    ∧ (numWorkers : Int) ≤ s.wg
    ∧ (s.tasks = [] → ∀ a, a ≠ .dbWorkerAbort → poolStep a s = none) := by
  have hinit : PoolInv numWorkers (newWorkerPool numWorkers rootDir root) := by
    simp [PoolInv, newWorkerPool]
  obtain ⟨h1, h2, h3, h4, h5⟩ := poolRun_inv numWorkers hN sched _ s hinit hrun
  refine ⟨?_, h1, h2, h3, h4, ?_, ?_⟩
  · intro ht
    rw [ht.1] at h1
    cases h1
  · rw [h5]
    omega
  · intro hnil a ha
    have hne : s.wg ≠ 0 := by
      rw [h5]
      omega
    cases a with
    | task i => simp [poolStep, taskStep, hnil]
    | waitReturn => simp [poolStep, hne]
    | closeFileOpChan => simp [poolStep, h1]
    | closeFilePathChan => simp [poolStep, h2]
    | fileWorkerExit => simp [poolStep, h3]
    | dbWorkerExit => simp [poolStep, h2]
    | dbWorkerAbort => exact absurd rfl ha

theorem wait_never_returns_witness :
    poolRun [.task 0, .task 0] (newWorkerPool 5 "root" (.dir true []))
      = some ⟨5, [], [], 5, 5, false, false, false⟩
    ∧ ¬ Terminated ⟨5, [], [], 5, 5, false, false, false⟩
    ∧ ∀ a, a ≠ .dbWorkerAbort → poolStep a ⟨5, [], [], 5, 5, false, false, false⟩ = none := by
  have hrun : poolRun [.task 0, .task 0] (newWorkerPool 5 "root" (.dir true []))
      = some ⟨5, [], [], 5, 5, false, false, false⟩ := by
    simp [poolRun, poolStep, taskStep, applyEffect, wgDone, processDirectoryStep, newWorkerPool,
      readDir]
  have h := wait_never_returns 5 (by decide) "root" (.dir true []) [.task 0, .task 0]
    ⟨5, [], [], 5, 5, false, false, false⟩ hrun
  exact ⟨hrun, h.1, h.2.2.2.2.2.2 rfl⟩

/-! ### The paths sent by the traversal -/

theorem count_flatMap_eraseIdx (f : Task → List String) (a : String) (l : List Task) (i : Nat)
    (t : Task) (h : l[i]? = some t) :
    List.count a ((l.eraseIdx i).flatMap f) + List.count a (f t)
      = List.count a (l.flatMap f) := by
  induction l generalizing i with
  | nil => simp at h
  | cons x xs ih =>
    cases i with
    | zero =>
      simp only [List.getElem?_cons_zero, Option.some.injEq] at h
      subst h
      simp only [List.eraseIdx_zero, List.tail_cons, List.flatMap_cons, List.count_append]
      omega
    | succ j =>
      simp only [List.getElem?_cons_succ] at h
      have := ih j h
      simp only [List.eraseIdx_cons_succ, List.flatMap_cons, List.count_append]
      omega

theorem count_flatMap_set (f : Task → List String) (a : String) (l : List Task) (i : Nat)
    (t t1 : Task) (h : l[i]? = some t) :
    List.count a ((l.set i t1).flatMap f) + List.count a (f t)
      = List.count a (l.flatMap f) + List.count a (f t1) := by
  induction l generalizing i with
  | nil => simp at h
  | cons x xs ih =>
    cases i with
    | zero =>
      simp only [List.getElem?_cons_zero, Option.some.injEq] at h
      subst h
      simp only [List.set_cons_zero, List.flatMap_cons, List.count_append]
      omega
    | succ j =>
      simp only [List.getElem?_cons_succ] at h
      have := ih j h
      simp only [List.set_cons_succ, List.flatMap_cons, List.count_append]
      omega

theorem filesOf_dir (filePath : String) (readable : Bool) (files : List Entry) :
    filesOf filePath (.dir readable files) = filesUnder filePath (.dir readable files) := by
  cases readable <;> simp [filesOf, filesUnder, readDir]

/-- What a step of a goroutine does to the paths it has yet to send. -/
theorem pending_step (t : Task) :
    match processDirectoryStep t with
    | .done => t.pending = []
    | .next t1 => t.pending = t1.pending
    | .send filePath t1 => t.pending = filePath :: t1.pending
    | .spawn t1 child => t.pending = child.pending ++ t1.pending := by
  cases t with
  | start dir node =>
    simp only [processDirectoryStep, Task.pending, filesUnder]
    cases readDir node <;> simp [Task.pending]
  | loop dir files =>
    cases files with
    | nil => simp [processDirectoryStep, Task.pending, filesIn]
    | cons e rest =>
      obtain ⟨name, lstatOk, node⟩ := e
      cases lstatOk with
      | false => simp [processDirectoryStep, Task.pending, filesIn]
      | true =>
        cases node with
        | regular content => simp [processDirectoryStep, Task.pending, filesIn, filesOf]
        | symlink target => simp [processDirectoryStep, Task.pending, filesIn, filesOf]
        | special => simp [processDirectoryStep, Task.pending, filesIn, filesOf]
        | dir readable files =>
          simp [processDirectoryStep, Task.pending, filesIn, filesOf_dir]

theorem taskStep_accounted (a : String) (i : Nat) (s s1 : Pool)
    (hstep : taskStep i s = some s1) : accounted a s1 = accounted a s := by
  unfold taskStep at hstep
  cases hget : s.tasks[i]? with
  | none => simp [hget] at hstep
  | some t =>
    rw [hget] at hstep
    simp only at hstep
    have hp := pending_step t
    have herase := count_flatMap_eraseIdx Task.pending a s.tasks i t hget
    have hset := fun t1 => count_flatMap_set Task.pending a s.tasks i t t1 hget
    cases heff : processDirectoryStep t with
    | done =>
      rw [heff] at hp
      simp only [heff, applyEffect, wgDone] at hstep
      split at hstep
      · cases hstep
      · simp only [Option.some.injEq] at hstep
        subst hstep
        simp only at hp
        simp only [accounted]
        rw [hp] at herase
        simp only [List.count_nil] at herase
        omega
    | next t1 =>
      rw [heff] at hp
      simp only [heff, applyEffect, Option.some.injEq] at hstep
      subst hstep
      simp only at hp
      simp only [accounted]
      have := hset t1
      rw [hp] at this
      omega
    | send filePath t1 =>
      rw [heff] at hp
      simp only [heff, applyEffect] at hstep
      split at hstep
      · cases hstep
      · simp only [Option.some.injEq] at hstep
        subst hstep
        simp only at hp
        simp only [accounted, List.count_append]
        have := hset t1
        rw [hp, List.count_cons] at this
        simp only [List.count_cons, List.count_nil]
        omega
    | spawn t1 child =>
      rw [heff] at hp
      simp only [heff, applyEffect, Option.some.injEq] at hstep
      subst hstep
      simp only at hp
      simp only [accounted, List.flatMap_append, List.count_append, List.flatMap_cons,
        List.flatMap_nil, List.append_nil]
      have := hset t1
      rw [hp, List.count_append] at this
      omega

theorem poolStep_accounted (a : String) (act : Action) (s s1 : Pool)
    (hstep : poolStep act s = some s1) : accounted a s1 = accounted a s := by
  cases act with
  | task i => exact taskStep_accounted a i s s1 hstep
  | waitReturn =>
    simp only [poolStep] at hstep
    split at hstep
    · simp only [Option.some.injEq] at hstep
      subst hstep
      rfl
    · cases hstep
  | closeFileOpChan =>
    simp only [poolStep] at hstep
    split at hstep
    · simp only [Option.some.injEq] at hstep
      subst hstep
      rfl
    · cases hstep
  | closeFilePathChan =>
    simp only [poolStep] at hstep
    split at hstep
    · simp only [Option.some.injEq] at hstep
      subst hstep
      rfl
    · cases hstep
  | fileWorkerExit =>
    simp only [poolStep, wgDone] at hstep
    split at hstep
    · split at hstep
      · cases hstep
      · simp only [Option.some.injEq] at hstep
        subst hstep
        rfl
    · cases hstep
  | dbWorkerExit =>
    simp only [poolStep, wgDone] at hstep
    split at hstep
    · split at hstep
      · cases hstep
      · simp only [Option.some.injEq] at hstep
        subst hstep
        rfl
    · cases hstep
  | dbWorkerAbort =>
    simp only [poolStep] at hstep
    split at hstep
    · simp only [Option.some.injEq] at hstep
      subst hstep
      rfl
    · cases hstep

theorem poolRun_accounted (a : String) (sched : List Action) (s s1 : Pool)
    (hrun : poolRun sched s = some s1) : accounted a s1 = accounted a s := by
  induction sched generalizing s with
  | nil =>
    simp only [poolRun, Option.some.injEq] at hrun
    subst hrun
    rfl
  | cons act rest ih =>
    simp only [poolRun] at hrun
    cases hstep : poolStep act s with
    | none => simp [hstep] at hrun
    | some s2 =>
      rw [hstep] at hrun
      rw [ih s2 hrun, poolStep_accounted a act s s2 hstep]

/-- Every step of a goroutine uses up some of the steps it has left. -/
theorem weight_step (t : Task) :
    match processDirectoryStep t with
    | .done => 0 < t.weight
    | .next t1 => t1.weight < t.weight
    | .send _ t1 => t1.weight < t.weight
    | .spawn t1 child => t1.weight + child.weight < t.weight := by
  cases t with
  | start dir node =>
    cases node with
    | regular content => simp [processDirectoryStep, readDir, Task.weight]
    | symlink target => simp [processDirectoryStep, readDir, Task.weight]
    | special => simp [processDirectoryStep, readDir, Task.weight]
    | dir readable files =>
      cases readable with
      | false => simp [processDirectoryStep, readDir, Task.weight]
      | true =>
        simp only [processDirectoryStep, readDir, Task.weight, nodeWeight]
        omega
  | loop dir files =>
    cases files with
    | nil => simp [processDirectoryStep, Task.weight]
    | cons e rest =>
      obtain ⟨name, lstatOk, node⟩ := e
      cases lstatOk with
      | false =>
        simp only [processDirectoryStep, Task.weight, entriesWeight, if_true]
        omega
      | true =>
        cases node with
        | regular content =>
          simp only [processDirectoryStep, Task.weight, entriesWeight, Bool.true_eq_false,
            if_false]
          omega
        | symlink target =>
          simp only [processDirectoryStep, Task.weight, entriesWeight, Bool.true_eq_false,
            if_false]
          omega
        | special =>
          simp only [processDirectoryStep, Task.weight, entriesWeight, Bool.true_eq_false,
            if_false]
          omega
        | dir readable files =>
          simp only [processDirectoryStep, Task.weight, entriesWeight, Bool.true_eq_false,
            if_false]
          omega

/-- As long as the channels are open and a `fileWorker` runs, the traversal can
be run to its end. -/
theorem exists_traversal_end (numWorkers : Nat) (hN : 1 ≤ numWorkers) (n : Nat) :
    ∀ s : Pool, PoolInv numWorkers s → (s.tasks.map Task.weight).sum ≤ n →
      ∃ sched s1, poolRun sched s = some s1 ∧ s1.tasks = [] := by
  induction n with
  | zero =>
    intro s _ hw
    cases hts : s.tasks with
    | nil => exact ⟨[], s, rfl, hts⟩
    | cons t ts =>
      rw [hts] at hw
      have := weight_step t
      simp only [List.map_cons, List.sum_cons] at hw
      cases t <;> simp only [Task.weight] at hw <;> omega
  | succ n ih =>
    intro s hinv hw
    cases hts : s.tasks with
    | nil => exact ⟨[], s, rfl, hts⟩
    | cons t ts =>
      rw [hts] at hw
      simp only [List.map_cons, List.sum_cons] at hw
      have hws := weight_step t
      have hget : s.tasks[0]? = some t := by simp [hts]
      have hstep : ∃ s2, taskStep 0 s = some s2 ∧ (s2.tasks.map Task.weight).sum ≤ n := by
        unfold taskStep
        rw [hget]
        simp only
        cases heff : processDirectoryStep t with
        | done =>
          rw [heff] at hws
          simp only at hws
          have hwg : ¬ (s.wg - 1 < 0) := by
            rw [hinv.2.2.2.2, hts]
            simp only [List.length_cons]
            push_cast
            omega
          simp only [applyEffect, wgDone, hwg, if_false]
          refine ⟨_, rfl, ?_⟩
          simp only [hts, List.eraseIdx_zero, List.tail_cons]
          omega
        | next t1 =>
          rw [heff] at hws
          simp only at hws
          refine ⟨_, rfl, ?_⟩
          simp only [hts, List.set_cons_zero, List.map_cons, List.sum_cons]
          omega
        | send filePath t1 =>
          rw [heff] at hws
          simp only at hws
          have hopen : ¬ (s.filePathChanClosed = true ∨ s.fileWorkers = 0) := by
            rw [hinv.2.2.1, hinv.2.2.2.1]
            simp
            omega
          simp only [applyEffect, hopen, if_false]
          refine ⟨_, rfl, ?_⟩
          simp only [hts, List.set_cons_zero, List.map_cons, List.sum_cons]
          omega
        | spawn t1 child =>
          rw [heff] at hws
          simp only at hws
          refine ⟨_, rfl, ?_⟩
          simp only [hts, List.set_cons_zero, List.map_append, List.map_cons, List.map_nil,
            List.sum_append, List.sum_cons, List.sum_nil]
          omega
      obtain ⟨s2, hs2, hw2⟩ := hstep
      have hinv2 := taskStep_inv numWorkers 0 s s2 hinv hs2
      obtain ⟨sched, s1, hrun, hnil⟩ := ih s2 hinv2 hw2
      refine ⟨.task 0 :: sched, s1, ?_, hnil⟩
      simp only [poolRun, poolStep, hs2, hrun]

theorem mem_filesIn (dir : String) (files : List Entry) (p : String) :
    p ∈ filesIn dir files
      ↔ ∃ name sub, (name, true, sub) ∈ files ∧ p ∈ filesOf (Join dir name) sub := by
  induction files with
  | nil => simp [filesIn]
  | cons e rest ih =>
    obtain ⟨name, lstatOk, node⟩ := e
    simp only [filesIn, List.mem_append, ih, List.mem_cons, Prod.mk.injEq]
    constructor
    · rintro (h | ⟨n, sub, hm, hp⟩)
      · cases lstatOk with
        | false => simp at h
        | true =>
          simp only [if_true] at h
          exact ⟨name, node, Or.inl ⟨rfl, rfl, rfl⟩, h⟩
      · exact ⟨n, sub, Or.inr hm, hp⟩
    · rintro ⟨n, sub, hm | hm, hp⟩
      · obtain ⟨h1, h2, h3⟩ := hm
        subst h1
        subst h3
        left
        simpa [← h2] using hp
      · exact Or.inr ⟨n, sub, hm, hp⟩

theorem nodeWeight_lt_of_mem (files : List Entry) (name : String) (ok : Bool) (sub : Tree)
    (h : (name, ok, sub) ∈ files) : nodeWeight sub < entriesWeight files := by
  induction files with
  | nil => simp at h
  | cons e rest ih =>
    obtain ⟨n, o, t⟩ := e
    simp only [List.mem_cons, Prod.mk.injEq] at h
    simp only [entriesWeight]
    rcases h with ⟨-, -, h3⟩ | h
    · subst h3
      omega
    · have := ih h
      omega

theorem mem_filesUnder_iff_aux (n : Nat) :
    ∀ (node : Tree) (dir p : String), nodeWeight node ≤ n →
      (p ∈ filesUnder dir node ↔ ReachableFile dir node p) := by
  induction n with
  | zero =>
    intro node dir p hw
    cases node <;> simp only [nodeWeight] at hw <;> omega
  | succ n ih =>
    intro node dir p hw
    cases node with
    | regular content =>
      simp only [filesUnder, readDir, List.not_mem_nil, false_iff]
      intro h
      cases h
    | symlink target =>
      simp only [filesUnder, readDir, List.not_mem_nil, false_iff]
      intro h
      cases h
    | special =>
      simp only [filesUnder, readDir, List.not_mem_nil, false_iff]
      intro h
      cases h
    | dir readable files =>
      cases readable with
      | false =>
        simp only [filesUnder, readDir, List.not_mem_nil, false_iff]
        intro h
        cases h
      | true =>
        simp only [filesUnder, readDir, mem_filesIn]
        simp only [nodeWeight] at hw
        constructor
        · rintro ⟨name, sub, hm, hp⟩
          have hlt := nodeWeight_lt_of_mem files name true sub hm
          cases sub with
          | regular content =>
            simp only [filesOf, List.mem_singleton] at hp
            subst hp
            exact ReachableFile.here dir files name content hm
          | symlink target => simp [filesOf] at hp
          | special => simp [filesOf] at hp
          | dir r fs =>
            rw [filesOf_dir] at hp
            exact ReachableFile.through dir files name _ p hm
              ((ih _ _ _ (by omega)).1 hp)
        · intro h
          cases h with
          | here _ _ name content hm =>
            exact ⟨name, .regular content, hm, by simp [filesOf]⟩
          | through _ _ name sub _ hm hsub =>
            have hlt := nodeWeight_lt_of_mem files name true sub hm
            have hp := (ih sub (Join dir name) p (by omega)).2 hsub
            refine ⟨name, sub, hm, ?_⟩
            cases sub with
            | regular content => simp [filesUnder, readDir] at hp
            | symlink target => simp [filesUnder, readDir] at hp
            | special => simp [filesUnder, readDir] at hp
            | dir r fs => rwa [filesOf_dir]

/-- The list `filesUnder` lists exactly the reachable regular files. -/
theorem mem_filesUnder_iff (rootDir : String) (root : Tree) (p : String) :
    p ∈ filesUnder rootDir root ↔ ReachableFile rootDir root p :=
  mem_filesUnder_iff_aux (nodeWeight root) root rootDir p (Nat.le_refl _)

theorem newWorkerPool_accounted (a : String) (numWorkers : Nat) (rootDir : String)
    (root : Tree) :
    accounted a (newWorkerPool numWorkers rootDir root)
      = List.count a (filesUnder rootDir root) := by
  simp [accounted, newWorkerPool, Task.pending]

/-! ### `filepath.Join` on valid names -/

theorem splitSlash_ne_nil (s : List Char) : splitSlash s ≠ [] := by
  cases s with
  | nil => simp [splitSlash]
  | cons c cs =>
    simp only [splitSlash]
    split
    · simp
    · split <;> simp

theorem splitSlash_cons (c : Char) (cs : List Char) :
    splitSlash (c :: cs)
      = if c = '/' then [] :: splitSlash cs
        else match splitSlash cs with
          | [] => [[c]]
          | x :: xs => (c :: x) :: xs := by
  rw [splitSlash]

theorem splitSlash_append (a b : List Char) :
    splitSlash (a ++ '/' :: b) = splitSlash a ++ splitSlash b := by
  induction a with
  | nil => simp [splitSlash]
  | cons c cs ih =>
    rw [List.cons_append, splitSlash_cons, splitSlash_cons, ih]
    by_cases hc : c = '/'
    · simp [hc]
    · simp only [hc, if_false]
      cases hs : splitSlash cs with
      | nil => exact absurd hs (splitSlash_ne_nil cs)
      | cons x xs => rfl

theorem splitSlash_of_no_slash (s : List Char) (h : '/' ∉ s) : splitSlash s = [s] := by
  induction s with
  | nil => simp [splitSlash]
  | cons c cs ih =>
    simp only [List.mem_cons, not_or] at h
    have hc : c ≠ '/' := fun e => h.1 e.symm
    simp [splitSlash, hc, ih h.2]

theorem mem_splitSlash (s : List Char) : ∀ e ∈ splitSlash s, '/' ∉ e := by
  induction s with
  | nil => simp [splitSlash]
  | cons c cs ih =>
    simp only [splitSlash]
    by_cases hc : c = '/'
    · simp only [hc, if_true, List.mem_cons]
      rintro e (he | he)
      · simp [he]
      · exact ih e he
    · simp only [hc, if_false]
      cases hs : splitSlash cs with
      | nil => exact absurd hs (splitSlash_ne_nil cs)
      | cons x xs =>
        rw [hs] at ih
        simp only [List.mem_cons]
        rintro e (he | he)
        · subst he
          simp only [List.mem_cons, not_or]
          exact ⟨fun e => hc e.symm, ih x (List.mem_cons_self _ _)⟩
        · exact ih e (List.mem_cons_of_mem _ he)

theorem splitSlash_joinSlash (es : List (List Char)) (hne : es ≠ [])
    (h : ∀ e ∈ es, '/' ∉ e) : splitSlash (joinSlash es) = es := by
  induction es with
  | nil => exact absurd rfl hne
  | cons e rest ih =>
    cases rest with
    | nil => simpa [joinSlash] using splitSlash_of_no_slash e (h e (List.mem_cons_self _ _))
    | cons e2 rest2 =>
      simp only [joinSlash]
      rw [splitSlash_append, splitSlash_of_no_slash e (h e (List.mem_cons_self _ _)),
        ih (by simp) (fun x hx => h x (List.mem_cons_of_mem _ hx))]
      rfl

theorem joinSlash_head (e : List Char) (rest : List (List Char)) (he : e ≠ []) :
    (joinSlash (e :: rest)).head? = e.head? := by
  cases rest with
  | nil => rfl
  | cons e2 rest2 =>
    simp only [joinSlash]
    cases e with
    | nil => exact absurd rfl he
    | cons c cs => rfl

theorem normalStack_mem (r : Bool) (out : List (List Char)) (h : NormalStack r out) :
    ∀ e ∈ out, e ≠ [] ∧ e ≠ ['.'] ∧ '/' ∉ e := by
  induction out with
  | nil => simp
  | cons top below ih =>
    obtain ⟨h1, h2, h3, -, h5⟩ := h
    intro e he
    simp only [List.mem_cons] at he
    rcases he with he | he
    · subst he
      exact ⟨h1, h2, h3⟩
    · exact ih h5 e he

theorem cleanPush_normal (r : Bool) (out : List (List Char)) (elem : List Char)
    (h : NormalStack r out) (hs : '/' ∉ elem) : NormalStack r (cleanPush r out elem) := by
  unfold cleanPush
  by_cases h1 : elem = [] ∨ elem = ['.']
  · simp only [h1, if_true]
    exact h
  · simp only [h1, if_false]
    simp only [not_or] at h1
    by_cases h2 : elem = ['.', '.']
    · simp only [h2, if_true]
      cases out with
      | nil =>
        cases r with
        | true => simp [NormalStack]
        | false => simp [NormalStack]
      | cons top below =>
        simp only
        by_cases h3 : top = ['.', '.']
        · simp only [h3, if_true]
          obtain ⟨a1, a2, a3, a4, a5⟩ := h
          have := a4 h3
          refine ⟨by simp, by simp, by simp, ?_, ?_⟩
          · intro _
            refine ⟨this.1, ?_⟩
            intro e he
            simp only [List.mem_cons] at he
            rcases he with he | he
            · exact he
            · exact this.2 e he
          · rw [← h3]
            exact ⟨a1, a2, a3, a4, a5⟩
        · simp only [h3, if_false]
          exact h.2.2.2.2
    · simp only [h2, if_false]
      exact ⟨h1.1, h1.2, hs, fun e => absurd e h2, h⟩

theorem foldl_cleanPush_normal (r : Bool) (es : List (List Char)) (out : List (List Char))
    (h : NormalStack r out) (hes : ∀ e ∈ es, '/' ∉ e) :
    NormalStack r (es.foldl (cleanPush r) out) := by
  induction es generalizing out with
  | nil => exact h
  | cons e rest ih =>
    simp only [List.foldl_cons]
    exact ih _ (cleanPush_normal r out e h (hes e (List.mem_cons_self _ _)))
      (fun x hx => hes x (List.mem_cons_of_mem _ hx))

theorem cleanPush_replay (r : Bool) (top : List Char) (below : List (List Char))
    (h : NormalStack r (top :: below)) : cleanPush r below top = top :: below := by
  obtain ⟨h1, h2, h3, h4, h5⟩ := h
  unfold cleanPush
  have hn : ¬ (top = [] ∨ top = ['.']) := by
    simp only [not_or]
    exact ⟨h1, h2⟩
  simp only [hn, if_false]
  by_cases hd : top = ['.', '.']
  · simp only [hd, if_true]
    obtain ⟨hr, hall⟩ := h4 hd
    cases below with
    | nil => simp [hr]
    | cons t2 b2 =>
      have : t2 = ['.', '.'] := hall t2 (List.mem_cons_self _ _)
      simp [this]
  · simp only [hd, if_false]

theorem foldl_cleanPush_replay (r : Bool) (out : List (List Char)) (h : NormalStack r out) :
    out.reverse.foldl (cleanPush r) [] = out := by
  induction out with
  | nil => rfl
  | cons top below ih =>
    simp only [List.reverse_cons, List.foldl_append, List.foldl_cons, List.foldl_nil]
    rw [ih h.2.2.2.2]
    exact cleanPush_replay r top below h

theorem string_data_ne_nil (s : String) (h : s ≠ "") : s.data ≠ [] := by
  intro hd
  apply h
  cases s
  simp only at hd
  subst hd
  rfl

theorem isAbs_mk_cons (c : Char) (cs : List Char) :
    IsAbs (String.mk (c :: cs)) = decide (c = '/') := by
  simp [IsAbs]

/-- Cleaning the rendering of a normal stack gives the stack back. -/
theorem pathElems_render (r : Bool) (out : List (List Char)) (hN : NormalStack r out)
    (hne : out ≠ []) :
    IsAbs (String.mk (if r = true then '/' :: joinSlash out.reverse else joinSlash out.reverse))
        = r
    ∧ pathElems (String.mk
        (if r = true then '/' :: joinSlash out.reverse else joinSlash out.reverse))
        = out.reverse := by
  have hmem := normalStack_mem r out hN
  have hrev_ne : out.reverse ≠ [] := by simpa using hne
  have hfree : ∀ e ∈ out.reverse, '/' ∉ e := fun e he =>
    (hmem e (List.mem_reverse.1 he)).2.2
  have hsplit := splitSlash_joinSlash out.reverse hrev_ne hfree
  have hreplay := foldl_cleanPush_replay r out hN
  cases r with
  | true =>
    simp only [if_true]
    have habs : IsAbs (String.mk ('/' :: joinSlash out.reverse)) = true := by
      simp [IsAbs]
    refine ⟨habs, ?_⟩
    simp only [pathElems, habs, cleanElems]
    rw [splitSlash_cons]
    simp only [if_true, List.foldl_cons, hsplit]
    have hp : cleanPush true [] [] = [] := by simp [cleanPush]
    rw [hp, hreplay]
  | false =>
    simp only [Bool.false_eq_true, if_false]
    have habs : IsAbs (String.mk (joinSlash out.reverse)) = false := by
      cases hrev : out.reverse with
      | nil => exact absurd hrev hrev_ne
      | cons e rest =>
        have he : e ∈ out.reverse := by rw [hrev]; exact List.mem_cons_self _ _
        have hprops := hmem e (List.mem_reverse.1 he)
        have hhead := joinSlash_head e rest hprops.1
        simp only [IsAbs, decide_eq_false_iff_not]
        rw [hhead]
        cases e with
        | nil => exact absurd rfl hprops.1
        | cons c cs =>
          simp only [List.head?_cons, Option.some.injEq]
          intro hc
          apply hprops.2.2
          simp [hc]
    refine ⟨habs, ?_⟩
    simp only [pathElems, habs, cleanElems, hsplit, hreplay]

theorem cleanPush_valid (r : Bool) (out : List (List Char)) (name : String)
    (hv : validName name = true) : cleanPush r out name.data = name.data :: out := by
  simp only [validName, decide_eq_true_eq] at hv
  obtain ⟨h1, -, h3, h4⟩ := hv
  simp [cleanPush, h1, h3, h4]

theorem pathElems_empty : pathElems "" = [] := by
  decide

theorem isAbs_empty : IsAbs "" = false := by
  decide

/-- What `filepath.Clean` returns, from the stack it ends with. -/
theorem clean_of_stack (r : Bool) (x : String) (out : List (List Char)) (hx : IsAbs x = r)
    (hfold : (splitSlash x.data).foldl (cleanPush r) [] = out) (hne : out ≠ []) :
    IsAbs (Clean x) = r ∧ pathElems (Clean x) = out.reverse := by
  have hN : NormalStack r out := by
    rw [← hfold]
    exact foldl_cleanPush_normal _ _ _ trivial (mem_splitSlash _)
  have hel : cleanElems r x.data = out.reverse := by
    simp only [cleanElems, hfold]
  have hrev_ne : out.reverse ≠ [] := by simpa using hne
  have hclean : Clean x = String.mk
      (if r = true then '/' :: joinSlash out.reverse else joinSlash out.reverse) := by
    simp only [Clean, hx, hel]
    cases r with
    | true => simp
    | false => simp [hrev_ne]
  rw [hclean]
  exact pathElems_render r out hN hne

/-- The elements of `filepath.Join(dir, name)` for a valid name: those of `dir`
followed by the name; the result is rooted exactly when `dir` is. -/
theorem pathElems_Join (dir name : String) (hv : validName name = true) :
    pathElems (Join dir name) = pathElems dir ++ [name.data]
    ∧ IsAbs (Join dir name) = IsAbs dir := by
  have hv1 := hv
  simp only [validName, decide_eq_true_eq] at hv1
  obtain ⟨hn1, hn2, hn3, hn4⟩ := hv1
  unfold Join
  by_cases hd : dir = ""
  · subst hd
    have hne : name ≠ "" := by
      intro e
      rw [e] at hn1
      exact hn1 rfl
    simp only [ne_eq, not_true_eq_false, if_false, hne, not_false_eq_true, if_true]
    have hx : IsAbs name = false := by
      simp only [IsAbs, decide_eq_false_iff_not]
      cases hdata : name.data with
      | nil => exact absurd hdata hn1
      | cons c cs =>
        simp only [List.head?_cons, Option.some.injEq]
        intro hc
        apply hn2
        rw [hdata, hc]
        exact List.mem_cons_self _ _
    have hfold : (splitSlash name.data).foldl (cleanPush false) [] = [name.data] := by
      rw [splitSlash_of_no_slash _ hn2]
      simp only [List.foldl_cons, List.foldl_nil]
      exact cleanPush_valid _ _ _ hv
    have := clean_of_stack false name [name.data] hx hfold (by simp)
    rw [pathElems_empty, isAbs_empty]
    exact ⟨by simpa using this.2, this.1⟩
  · simp only [ne_eq, hd, not_false_eq_true, if_true]
    have hdne := string_data_ne_nil dir hd
    have hdata : (dir ++ "/" ++ name).data = dir.data ++ '/' :: name.data := by
      simp [String.data_append]
    have hx : IsAbs (dir ++ "/" ++ name) = IsAbs dir := by
      simp only [IsAbs, hdata]
      cases hdd : dir.data with
      | nil => exact absurd hdd hdne
      | cons c cs => simp
    have hfold : (splitSlash (dir ++ "/" ++ name).data).foldl (cleanPush (IsAbs dir)) []
        = name.data :: (splitSlash dir.data).foldl (cleanPush (IsAbs dir)) [] := by
      rw [hdata, splitSlash_append, splitSlash_of_no_slash _ hn2]
      simp only [List.foldl_append, List.foldl_cons, List.foldl_nil]
      exact cleanPush_valid _ _ _ hv
    have := clean_of_stack (IsAbs dir) _ _ hx hfold (by simp)
    refine ⟨?_, this.1⟩
    rw [this.2]
    simp [pathElems, cleanElems]

/-! ### Each reachable file is sent once -/

theorem wellFormedAll_mem (files : List Entry) (h : wellFormedAll files = true) :
    ∀ name ok sub, (name, ok, sub) ∈ files → wellFormed sub = true := by
  induction files with
  | nil => simp
  | cons e rest ih =>
    obtain ⟨n, o, t⟩ := e
    simp only [wellFormedAll, Bool.and_eq_true] at h
    intro name ok sub hm
    simp only [List.mem_cons, Prod.mk.injEq] at hm
    rcases hm with ⟨-, -, h3⟩ | hm
    · subst h3
      exact h.1
    · exact ih h.2 name ok sub hm

theorem map_pathElems_filesIn (files : List Entry) (dir : String)
    (hsub : ∀ name ok sub, (name, ok, sub) ∈ files → ∀ q,
      (filesOf q sub).map pathElems = (chainsOf sub).map (fun c => pathElems q ++ c))
    (hnames : namesOk files = true) :
    (filesIn dir files).map pathElems
      = (chainsIn files).map (fun c => pathElems dir ++ c) := by
  induction files with
  | nil => simp [filesIn, chainsIn]
  | cons e rest ih =>
    obtain ⟨name, ok, node⟩ := e
    simp only [namesOk, Bool.and_eq_true] at hnames
    obtain ⟨⟨hv, hrest⟩, -⟩ := hnames
    have ih1 := ih (fun n o s hm => hsub n o s (List.mem_cons_of_mem _ hm)) hrest
    simp only [filesIn, chainsIn, List.map_append, ih1]
    congr 1
    cases ok with
    | false => simp
    | true =>
      simp only [if_true]
      rw [hsub name true node (List.mem_cons_self _ _), (pathElems_Join dir name hv).1]
      simp [List.map_map, Function.comp_def]

theorem map_pathElems_filesOf_aux (n : Nat) :
    ∀ (node : Tree) (q : String), nodeWeight node ≤ n → wellFormed node = true →
      (filesOf q node).map pathElems = (chainsOf node).map (fun c => pathElems q ++ c) := by
  induction n with
  | zero =>
    intro node q hw
    cases node <;> simp only [nodeWeight] at hw <;> omega
  | succ n ih =>
    intro node q hw hwf
    cases node with
    | regular content => simp [filesOf, chainsOf]
    | symlink target => simp [filesOf, chainsOf]
    | special => simp [filesOf, chainsOf]
    | dir readable files =>
      cases readable with
      | false => simp [filesOf, chainsOf]
      | true =>
        simp only [wellFormed, Bool.and_eq_true] at hwf
        simp only [nodeWeight] at hw
        simp only [filesOf, chainsOf]
        apply map_pathElems_filesIn files q _ hwf.1
        intro name ok sub hm q1
        have hlt := nodeWeight_lt_of_mem files name ok sub hm
        exact ih sub q1 (by omega) (wellFormedAll_mem files hwf.2 name ok sub hm)

theorem chainsIn_head (files : List Entry) (c : List (List Char)) (hc : c ∈ chainsIn files) :
    ∃ e ∈ files, ∃ tl, c = e.1.data :: tl := by
  induction files with
  | nil => simp [chainsIn] at hc
  | cons e rest ih =>
    obtain ⟨name, ok, node⟩ := e
    simp only [chainsIn, List.mem_append] at hc
    rcases hc with hc | hc
    · cases ok with
      | false => simp at hc
      | true =>
        simp only [if_true, List.mem_map] at hc
        obtain ⟨tl, -, htl⟩ := hc
        exact ⟨(name, true, node), List.mem_cons_self _ _, tl, htl.symm⟩
    · obtain ⟨e, he, tl, htl⟩ := ih hc
      exact ⟨e, List.mem_cons_of_mem _ he, tl, htl⟩

theorem chainsIn_nodup (files : List Entry)
    (hsub : ∀ name ok sub, (name, ok, sub) ∈ files → (chainsOf sub).Nodup)
    (hnames : namesOk files = true) : (chainsIn files).Nodup := by
  induction files with
  | nil => simp [chainsIn]
  | cons e rest ih =>
    obtain ⟨name, ok, node⟩ := e
    simp only [namesOk, Bool.and_eq_true, decide_eq_true_eq] at hnames
    obtain ⟨⟨-, hrest⟩, hdist⟩ := hnames
    have ih1 := ih (fun n o s hm => hsub n o s (List.mem_cons_of_mem _ hm)) hrest
    simp only [chainsIn]
    rw [List.nodup_append]
    refine ⟨?_, ih1, ?_⟩
    · cases ok with
      | false => simp
      | true =>
        simp only [if_true]
        apply List.Nodup.map _ (hsub name true node (List.mem_cons_self _ _))
        intro a b hab
        simpa using hab
    · intro c hc1 hc2
      cases ok with
      | false => simp at hc1
      | true =>
        simp only [if_true, List.mem_map] at hc1
        obtain ⟨tl, -, htl⟩ := hc1
        obtain ⟨e, he, tl2, htl2⟩ := chainsIn_head rest c hc2
        rw [← htl] at htl2
        simp only [List.cons.injEq] at htl2
        apply hdist e he
        cases hne : e.1
        cases hnn : name
        rw [hne, hnn] at htl2
        simp only at htl2
        rw [htl2.1]

theorem chainsOf_nodup_aux (n : Nat) :
    ∀ node : Tree, nodeWeight node ≤ n → wellFormed node = true → (chainsOf node).Nodup := by
  induction n with
  | zero =>
    intro node hw
    cases node <;> simp only [nodeWeight] at hw <;> omega
  | succ n ih =>
    intro node hw hwf
    cases node with
    | regular content => simp [chainsOf]
    | symlink target => simp [chainsOf]
    | special => simp [chainsOf]
    | dir readable files =>
      cases readable with
      | false => simp [chainsOf]
      | true =>
        simp only [wellFormed, Bool.and_eq_true] at hwf
        simp only [nodeWeight] at hw
        simp only [chainsOf]
        apply chainsIn_nodup files _ hwf.1
        intro name ok sub hm
        have hlt := nodeWeight_lt_of_mem files name ok sub hm
        exact ih sub (by omega) (wellFormedAll_mem files hwf.2 name ok sub hm)

/-- In a tree whose directories list valid names, each once, no path is listed
twice among the reachable regular files. -/
theorem filesUnder_nodup (rootDir : String) (root : Tree) (hwf : wellFormed root = true) :
    (filesUnder rootDir root).Nodup := by
  cases root with
  | regular content => simp [filesUnder, readDir]
  | symlink target => simp [filesUnder, readDir]
  | special => simp [filesUnder, readDir]
  | dir readable files =>
    cases readable with
    | false => simp [filesUnder, readDir]
    | true =>
      have hmap := map_pathElems_filesOf_aux _ (.dir true files) rootDir (Nat.le_refl _) hwf
      have hnd := chainsOf_nodup_aux _ (.dir true files) (Nat.le_refl _) hwf
      have heq : filesUnder rootDir (.dir true files) = filesOf rootDir (.dir true files) := by
        rw [filesOf_dir]
      rw [heq]
      apply List.Nodup.of_map pathElems
      rw [hmap]
      apply List.Nodup.map _ hnd
      intro a b hab
      simpa using hab

theorem filesIn_append (dir : String) (a b : List Entry) :
    filesIn dir (a ++ b) = filesIn dir a ++ filesIn dir b := by
  induction a with
  | nil => simp [filesIn]
  | cons e rest ih =>
    obtain ⟨name, ok, node⟩ := e
    simp [filesIn, ih]

/-- Claim C8.  For every directory tree, with any directories whose listing
fails and any entries whose `os.Lstat` fails: under every schedule the paths
sent on `filePathChan` are reachable regular files, none sent more often than it
is listed; when no `processDirectory` goroutine is left, the paths sent are
exactly the regular files reachable from the root through a chain of real
directories whose listing succeeds, as a multiset; and where every directory
lists valid names, each once, no path is sent twice.  With at least one worker
the traversal can be run to its end.  A symbolic link is skipped, neither sent
nor entered, whatever its target; a directory whose listing fails, or an entry
whose `os.Lstat` fails, takes only its own subtree out of the output. -/
theorem processDirectory_sends (numWorkers : Nat) (rootDir : String) (root : Tree) :
    (1 ≤ numWorkers →
      ∃ sched s, poolRun sched (newWorkerPool numWorkers rootDir root) = some s ∧ s.tasks = [])
    ∧ (∀ sched s, poolRun sched (newWorkerPool numWorkers rootDir root) = some s →
        (∀ p ∈ s.sent, ReachableFile rootDir root p)
        ∧ (∀ p, List.count p s.sent ≤ List.count p (filesUnder rootDir root))
        ∧ (wellFormed root = true → s.sent.Nodup)
        ∧ (s.tasks = [] →
            (∀ p, p ∈ s.sent ↔ ReachableFile rootDir root p)
            ∧ List.Perm s.sent (filesUnder rootDir root)))
    ∧ (∀ dir name lstatOk target rest,
        processDirectoryStep (.loop dir ((name, lstatOk, .symlink target) :: rest))
          = .next (.loop dir rest))
    ∧ (∀ pre name lstatOk files rest,
        filesUnder rootDir (.dir true (pre ++ (name, lstatOk, .dir false files) :: rest))
          = filesUnder rootDir (.dir true (pre ++ rest)))
    ∧ (∀ pre name node rest,
        filesUnder rootDir (.dir true (pre ++ (name, false, node) :: rest))
          = filesUnder rootDir (.dir true (pre ++ rest))) := by
  have hcount : ∀ sched s, poolRun sched (newWorkerPool numWorkers rootDir root) = some s →
      ∀ a, List.count a s.sent + List.count a (s.tasks.flatMap Task.pending)
        = List.count a (filesUnder rootDir root) := by
    intro sched s hrun a
    have := poolRun_accounted a sched _ s hrun
    rw [newWorkerPool_accounted] at this
    exact this
  refine ⟨?_, ?_, ?_, ?_, ?_⟩
  · intro hN
    have hinit : PoolInv numWorkers (newWorkerPool numWorkers rootDir root) := by
      simp [PoolInv, newWorkerPool]
    exact exists_traversal_end numWorkers hN _ _ hinit (Nat.le_refl _)
  · intro sched s hrun
    have hc := hcount sched s hrun
    refine ⟨?_, ?_, ?_, ?_⟩
    · intro p hp
      rw [← mem_filesUnder_iff]
      have h1 := hc p
      have h2 : 0 < List.count p s.sent := List.count_pos_iff.2 hp
      exact List.count_pos_iff.1 (by omega)
    · intro p
      have h1 := hc p
      omega
    · intro hwf
      have hnd := filesUnder_nodup rootDir root hwf
      rw [List.nodup_iff_count_le_one]
      intro a
      have h1 := hc a
      have h2 := List.nodup_iff_count_le_one.1 hnd a
      omega
    · intro hnil
      have hperm : List.Perm s.sent (filesUnder rootDir root) := by
        rw [List.perm_iff_count]
        intro a
        have h1 := hc a
        simp only [hnil, List.flatMap_nil, List.count_nil] at h1
        omega
      refine ⟨?_, hperm⟩
      intro p
      rw [← mem_filesUnder_iff]
      exact hperm.mem_iff
  · intro dir name lstatOk target rest
    cases lstatOk <;> simp [processDirectoryStep]
  · intro pre name lstatOk files rest
    simp only [filesUnder, readDir, filesIn_append, filesIn, filesOf]
    cases lstatOk <;> simp
  · intro pre name node rest
    simp [filesUnder, readDir, filesIn_append, filesIn]

theorem processDirectory_sends_witness :
    wellFormed (.dir true [("a", true, .dir true [("x.txt", true, .regular [104])]),
        ("l", true, .symlink "a"), ("u", true, .dir false [("y", true, .regular [])]),
        ("z", true, .regular [])]) = true
    ∧ poolRun [.task 0, .task 0, .task 0, .task 0, .task 0, .task 0, .task 0, .task 0,
          .task 0, .task 0]
        (newWorkerPool 5 "r" (.dir true [("a", true, .dir true [("x.txt", true, .regular [104])]),
          ("l", true, .symlink "a"), ("u", true, .dir false [("y", true, .regular [])]),
          ("z", true, .regular [])]))
        = some ⟨5, [], ["r/z", "r/a/x.txt"], 5, 5, false, false, false⟩
    ∧ ["r/z", "r/a/x.txt"].Nodup
    ∧ ∀ p, p ∈ ["r/z", "r/a/x.txt"]
        ↔ ReachableFile "r" (.dir true [("a", true, .dir true [("x.txt", true, .regular [104])]),
          ("l", true, .symlink "a"), ("u", true, .dir false [("y", true, .regular [])]),
          ("z", true, .regular [])]) p := by
  have hwf : wellFormed (.dir true [("a", true, .dir true [("x.txt", true, .regular [104])]),
        ("l", true, .symlink "a"), ("u", true, .dir false [("y", true, .regular [])]),
        ("z", true, .regular [])]) = true := by decide
  have hrun : poolRun [.task 0, .task 0, .task 0, .task 0, .task 0, .task 0, .task 0, .task 0,
          .task 0, .task 0]
        (newWorkerPool 5 "r" (.dir true [("a", true, .dir true [("x.txt", true, .regular [104])]),
          ("l", true, .symlink "a"), ("u", true, .dir false [("y", true, .regular [])]),
          ("z", true, .regular [])]))
        = some ⟨5, [], ["r/z", "r/a/x.txt"], 5, 5, false, false, false⟩ := by rfl
  have h := (processDirectory_sends 5 "r" _).2.1 _ _ hrun
  exact ⟨hwf, hrun, h.2.2.1 hwf, (h.2.2.2 rfl).1⟩

/-! ### Absolute and relative roots -/

theorem isAbs_Join_of_isAbs (dir name : String) (h : IsAbs dir = true) :
    IsAbs (Join dir name) = true := by
  have hd : dir ≠ "" := by
    intro e
    rw [e, isAbs_empty] at h
    cases h
  have hdne := string_data_ne_nil dir hd
  have hdata : (dir ++ "/" ++ name).data = dir.data ++ '/' :: name.data := by
    simp [String.data_append]
  have hx : IsAbs (dir ++ "/" ++ name) = true := by
    rw [← h]
    simp only [IsAbs, hdata]
    cases hdd : dir.data with
    | nil => exact absurd hdd hdne
    | cons c cs => simp
  simp only [Join, ne_eq, hd, not_false_eq_true, if_true, Clean, hx]
  simp [IsAbs]

theorem reachable_isAbs (dir : String) (node : Tree) (p : String)
    (h : ReachableFile dir node p) : IsAbs dir = true → IsAbs p = true := by
  induction h with
  | here dir files name content _ => exact isAbs_Join_of_isAbs dir name
  | through dir files name sub p _ _ ih => exact fun hd => ih (isAbs_Join_of_isAbs dir name hd)

theorem namesOk_mem (files : List Entry) (h : namesOk files = true) :
    ∀ e ∈ files, validName e.1 = true := by
  induction files with
  | nil => simp
  | cons e rest ih =>
    obtain ⟨n, o, t⟩ := e
    simp only [namesOk, Bool.and_eq_true] at h
    intro x hx
    simp only [List.mem_cons] at hx
    rcases hx with hx | hx
    · subst hx
      exact h.1.1
    · exact ih h.1.2 x hx

theorem reachable_isAbs_eq (dir : String) (node : Tree) (p : String)
    (h : ReachableFile dir node p) : wellFormed node = true → IsAbs p = IsAbs dir := by
  induction h with
  | here dir files name content hm =>
    intro hwf
    simp only [wellFormed, Bool.and_eq_true] at hwf
    exact (pathElems_Join dir name (namesOk_mem files hwf.1 _ hm)).2
  | through dir files name sub p hm _ ih =>
    intro hwf
    simp only [wellFormed, Bool.and_eq_true] at hwf
    rw [ih (wellFormedAll_mem files hwf.2 name true sub hm)]
    exact (pathElems_Join dir name (namesOk_mem files hwf.1 _ hm)).2

/-- Every path sent is a reachable regular file. -/
theorem sent_reachable (numWorkers : Nat) (rootDir : String) (root : Tree)
    (sched : List Action) (s : Pool)
    (hrun : poolRun sched (newWorkerPool numWorkers rootDir root) = some s) :
    ∀ p ∈ s.sent, ReachableFile rootDir root p := by
  intro p hp
  rw [← mem_filesUnder_iff]
  have h1 := poolRun_accounted p sched _ s hrun
  rw [newWorkerPool_accounted] at h1
  simp only [accounted] at h1
  have h2 : 0 < List.count p s.sent := List.count_pos_iff.2 hp
  exact List.count_pos_iff.1 (by omega)

theorem osRemove_eq (fault : Bool) (fs fs1 : FS) (p : String)
    (h : osRemove fault fs p = some fs1) : fs1 = fun q => if q = p then none else fs q := by
  simp only [osRemove] at h
  split at h
  · cases h
  · split at h
    · cases h
    · simp only [Option.some.injEq] at h
      exact h.symm

theorem osSymlink_eq (fault : Bool) (fs fs2 : FS) (oldname newname : String)
    (h : osSymlink fault fs oldname newname = some fs2) :
    fs2 = fun q => if q = newname then some (.symlink oldname) else fs q := by
  simp only [osSymlink] at h
  split at h
  · cases h
  · split at h
    · cases h
    · simp only [Option.some.injEq] at h
      exact h.symm

theorem dbWorkerStep_absInv (fs0 : FS) (flt : Faults) (op : FileOp) (st : State)
    (hop : IsAbs op.Path = true) (hinv : AbsInv fs0 st) : AbsInv fs0 (dbWorkerStep flt op st) := by
  obtain ⟨hidx, hfs⟩ := hinv
  have hgrow : AbsInv fs0 { st with index := st.index ++ [(op.Hash, op.Path)] } := by
    refine ⟨?_, ?_⟩
    · intro r hr
      simp only [List.mem_append, List.mem_singleton] at hr
      rcases hr with hr | hr
      · exact hidx r hr
      · subst hr
        exact hop
    · intro q target hqt
      rcases hfs q target hqt with h | ⟨h1, h, h2⟩
      · exact Or.inl h
      · exact Or.inr ⟨h1, h, List.mem_append_left _ h2⟩
  unfold dbWorkerStep
  cases hq : queryRow flt.query st.index op.Hash with
  | err => exact ⟨hidx, hfs⟩
  | errNoRows =>
    simp only [scanned, ne_eq, not_true_eq_false, false_and, if_false, if_true, dbInsert]
    cases flt.insert with
    | true => exact ⟨hidx, hfs⟩
    | false => simpa using hgrow
  | ok c =>
    have hcm : (op.Hash, c) ∈ st.index := by
      simp only [queryRow] at hq
      split at hq
      · cases hq
      · cases hfr : firstRow op.Hash st.index with
        | none => simp [hfr] at hq
        | some v =>
          simp only [hfr, ScanResult.ok.injEq] at hq
          subst hq
          exact firstRow_some_mem hfr
    have hc : IsAbs c = true := hidx _ hcm
    simp only [scanned]
    split
    · cases hrm : osRemove flt.remove st.fs op.Path with
      | none => exact ⟨hidx, hfs⟩
      | some fs1 =>
        have h1 := osRemove_eq _ _ _ _ hrm
        simp only
        cases hln : osSymlink flt.symlink fs1 c op.Path with
        | none =>
          refine ⟨hidx, ?_⟩
          intro q target hqt
          simp only [h1] at hqt
          split at hqt
          · cases hqt
          · exact hfs q target hqt
        | some fs2 =>
          have h2 := osSymlink_eq _ _ _ _ _ hln
          refine ⟨hidx, ?_⟩
          intro q target hqt
          simp only [h2, h1] at hqt
          split at hqt
          · simp only [Option.some.injEq, Node.symlink.injEq] at hqt
            subst hqt
            exact Or.inr ⟨hc, op.Hash, hcm⟩
          · exact hfs q target hqt
    · split
      · simp only [dbInsert]
        cases flt.insert with
        | true => exact ⟨hidx, hfs⟩
        | false => simpa using hgrow
      · exact ⟨hidx, hfs⟩

theorem dbWorkerRun_absInv (fs0 : FS) (steps : List (Faults × FileOp)) (st : State)
    (hops : ∀ x ∈ steps, IsAbs x.2.Path = true) (hinv : AbsInv fs0 st) :
    AbsInv fs0 (dbWorkerRun steps st) := by
  induction steps generalizing st with
  | nil => exact hinv
  | cons x rest ih =>
    obtain ⟨flt, op⟩ := x
    simp only [dbWorkerRun]
    exact ih _ (fun y hy => hops y (List.mem_cons_of_mem _ hy))
      (dbWorkerStep_absInv fs0 flt op st (hops (flt, op) (List.mem_cons_self _ _)) hinv)

/-- Claim C9, as the code has it.  The traversal joins names to the root as it
was given.  For every absolute root directory argument every path sent is
absolute; so, from a table whose stored paths are absolute (the empty one for
instance), every path the resolver stores is absolute, and every target it
writes with `os.Symlink` is an absolute path stored in the table, which is
followed to that same path whatever the working directory and whatever
directory the link lives in. -/
theorem absolute_root_absolute_paths (numWorkers : Nat) (rootDir : String) (root : Tree)
    (habs : IsAbs rootDir = true) :
    (∀ sched s, poolRun sched (newWorkerPool numWorkers rootDir root) = some s →
      ∀ p ∈ s.sent, IsAbs p = true)
    ∧ (∀ (steps : List (Faults × FileOp)) (st : State),
        (∀ x ∈ steps, ReachableFile rootDir root x.2.Path) →
        (∀ r ∈ st.index, IsAbs r.2 = true) →
        (∀ r ∈ (dbWorkerRun steps st).index, IsAbs r.2 = true)
        ∧ ∀ q target, (dbWorkerRun steps st).fs q = some (.symlink target) →
            st.fs q = some (.symlink target)
            ∨ (IsAbs target = true
              ∧ (∃ h, (h, target) ∈ (dbWorkerRun steps st).index)
              ∧ ∀ cwd linkDir, resolvePath cwd (followLink linkDir target) = target)) := by
  constructor
  · intro sched s hrun p hp
    exact reachable_isAbs rootDir root p
      (sent_reachable numWorkers rootDir root sched s hrun p hp) habs
  · intro steps st hsteps hidx
    have hinv : AbsInv st.fs st := ⟨hidx, fun q target h => Or.inl h⟩
    have hops : ∀ x ∈ steps, IsAbs x.2.Path = true := fun x hx =>
      reachable_isAbs rootDir root _ (hsteps x hx) habs
    obtain ⟨h1, h2⟩ := dbWorkerRun_absInv st.fs steps st hops hinv
    refine ⟨h1, ?_⟩
    intro q target hq
    rcases h2 q target hq with h | ⟨h, hm⟩
    · exact Or.inl h
    · exact Or.inr ⟨h, hm, fun cwd linkDir => by simp [resolvePath, followLink, h]⟩

theorem absolute_root_absolute_paths_witness :
    IsAbs "/r" = true
    ∧ poolRun [.task 0, .task 0, .task 0, .task 0, .task 0, .task 0]
        (newWorkerPool 5 "/r" (.dir true [("a", true, .dir true [("x", true, .regular [104])])]))
        = some ⟨5, [], ["/r/a/x"], 5, 5, false, false, false⟩
    ∧ (∀ p ∈ ["/r/a/x"], IsAbs p = true) := by
  have hrun : poolRun [.task 0, .task 0, .task 0, .task 0, .task 0, .task 0]
        (newWorkerPool 5 "/r" (.dir true [("a", true, .dir true [("x", true, .regular [104])])]))
        = some ⟨5, [], ["/r/a/x"], 5, 5, false, false, false⟩ := by rfl
  have h := absolute_root_absolute_paths 5 "/r"
    (.dir true [("a", true, .dir true [("x", true, .regular [104])])]) (by decide)
  exact ⟨by decide, hrun, h.1 _ _ hrun⟩

/-- Claim C9 as stated fails for a relative root: with the root `r` the paths
sent are `r/a/x` and `r/b/y`, not absolute; the resolver stores `r/a/x` and
makes `r/b/y` a link with the relative target `r/a/x`, which from the directory
of the link leads to `r/b/r/a/x`. -/
theorem relative_root_relative_paths :
    poolRun [.task 0, .task 0, .task 0, .task 0, .task 0, .task 0, .task 0, .task 0, .task 0,
          .task 0]
        (newWorkerPool 5 "r" (.dir true [("a", true, .dir true [("x", true, .regular [104])]),
          ("b", true, .dir true [("y", true, .regular [104])])]))
        = some ⟨5, [], ["r/a/x", "r/b/y"], 5, 5, false, false, false⟩
    ∧ IsAbs "r/a/x" = false ∧ IsAbs "r/b/y" = false
    ∧ (dbWorkerRun [(noFaults, ⟨"r/a/x", "h"⟩), (noFaults, ⟨"r/b/y", "h"⟩)]
        ⟨[], fun q => if q = "r/a/x" ∨ q = "r/b/y" then some (.regular [104]) else none⟩).index
        = [("h", "r/a/x")]
    ∧ (dbWorkerRun [(noFaults, ⟨"r/a/x", "h"⟩), (noFaults, ⟨"r/b/y", "h"⟩)]
        ⟨[], fun q => if q = "r/a/x" ∨ q = "r/b/y" then some (.regular [104]) else none⟩).fs
          "r/b/y" = some (.symlink "r/a/x")
    ∧ followLink "r/b" "r/a/x" = "r/b/r/a/x" := by
  refine ⟨by rfl, by decide, by decide, by decide, by decide, by decide⟩

/-! ### Two workers, one fingerprint -/

theorem queryRow_absent (idx : Index) (h : String) (habs : ∀ r ∈ idx, r.1 ≠ h) :
    queryRow false idx h = .errNoRows := by
  simp [queryRow, (firstRow_eq_none_iff h idx).2 habs]

theorem queryRow_appended (idx : Index) (h p : String) (habs : ∀ r ∈ idx, r.1 ≠ h) :
    queryRow false (idx ++ [(h, p)]) h = .ok p := by
  simp [queryRow, firstRow_append, (firstRow_eq_none_iff h idx).2 habs, firstRow]

theorem workerStep_inv_first (flt1 flt2 : Faults) (h p1 p2 : String) (idx : Index) (fs : FS)
    (hq1 : flt1.query = false) (hi1 : flt1.insert = false)
    (hne : p1 ≠ p2) (hp2 : p2 ≠ "") (habs : ∀ r ∈ idx, r.1 ≠ h)
    (d : Duo) (hinv : DuoInv idx fs h p1 p2 d) :
    DuoInv idx fs h p1 p2 (duoStep flt1 flt2 ⟨p1, h⟩ ⟨p2, h⟩ false d) := by
  obtain ⟨pc1, pc2, st⟩ := d
  have hA := queryRow_absent idx h habs
  have hB := queryRow_appended idx h p2 habs
  cases pc1 with
  | query =>
    cases pc2 with
    | query =>
      obtain ⟨e1, e2⟩ := hinv
      simp only at e1 e2
      simp [duoStep, workerStep, DuoInv, hq1, e1, e2, hA, scanned]
    | decided o2 =>
      obtain ⟨e0, e1, e2⟩ := hinv
      simp only at e1 e2
      simp [duoStep, workerStep, DuoInv, hq1, e0, e1, e2, hA, scanned]
    | removed o2 => exact absurd hinv (by simp [DuoInv])
    | finished =>
      obtain ⟨e1, e2⟩ := hinv
      simp only at e1 e2
      simp [duoStep, workerStep, DuoInv, hq1, e1, e2, hB, scanned]
  | decided o1 =>
    cases pc2 with
    | query =>
      obtain ⟨e0, e1, e2⟩ := hinv
      simp only at e1 e2
      simp [duoStep, workerStep, DuoInv, hi1, e0, e1, e2, dbInsert]
    | decided o2 =>
      obtain ⟨e0, e0b, e1, e2⟩ := hinv
      simp only at e1 e2
      simp [duoStep, workerStep, DuoInv, hi1, e0, e0b, e1, e2, dbInsert]
    | removed o2 => exact absurd hinv (by simp [DuoInv])
    | finished =>
      obtain ⟨e0, e1, e2⟩ := hinv
      simp only at e1 e2
      rcases e0 with e0 | e0
      · simp [duoStep, workerStep, DuoInv, hi1, e0, e1, e2, dbInsert]
      · subst e0
        have hcond : o1 ≠ "" ∧ o1 ≠ p1 := ⟨hp2, fun e => hne e.symm⟩
        simp only [duoStep, workerStep, Bool.false_eq_true, if_false, hcond, ne_eq,
          not_false_eq_true, and_self, if_true]
        cases hrm : osRemove flt1.remove st.fs p1 with
        | none =>
          simp only [DuoInv]
          exact Or.inr (Or.inl ⟨e1, fun q _ => by rw [e2]⟩)
        | some fs1 =>
          have := osRemove_eq _ _ _ _ hrm
          simp only [DuoInv, true_and]
          exact ⟨e1, by rw [this, e2]⟩
  | removed o1 =>
    cases pc2 with
    | query => exact absurd hinv (by simp [DuoInv])
    | decided o2 => exact absurd hinv (by simp [DuoInv])
    | removed o2 => exact absurd hinv (by simp [DuoInv])
    | finished =>
      obtain ⟨e0, e1, e2⟩ := hinv
      simp only at e1 e2
      simp only [duoStep, workerStep, Bool.false_eq_true, if_false]
      cases hln : osSymlink flt1.symlink st.fs o1 p1 with
      | none =>
        simp only [DuoInv]
        refine Or.inr (Or.inl ⟨e1, ?_⟩)
        intro q hq
        simp [e2, hq]
      | some fs2 =>
        have := osSymlink_eq _ _ _ _ _ hln
        simp only [DuoInv]
        refine Or.inr (Or.inl ⟨e1, ?_⟩)
        intro q hq
        simp [this, e2, hq]
  | finished =>
    simpa [duoStep, workerStep] using hinv

theorem workerStep_inv_second (flt1 flt2 : Faults) (h p1 p2 : String) (idx : Index) (fs : FS)
    (hq2 : flt2.query = false) (hi2 : flt2.insert = false)
    (hne : p1 ≠ p2) (hp1 : p1 ≠ "") (habs : ∀ r ∈ idx, r.1 ≠ h)
    (d : Duo) (hinv : DuoInv idx fs h p1 p2 d) :
    DuoInv idx fs h p1 p2 (duoStep flt1 flt2 ⟨p1, h⟩ ⟨p2, h⟩ true d) := by
  obtain ⟨pc1, pc2, st⟩ := d
  have hA := queryRow_absent idx h habs
  have hB := queryRow_appended idx h p1 habs
  cases pc2 with
  | query =>
    cases pc1 with
    | query =>
      obtain ⟨e1, e2⟩ := hinv
      simp only at e1 e2
      simp [duoStep, workerStep, DuoInv, hq2, e1, e2, hA, scanned]
    | decided o1 =>
      obtain ⟨e0, e1, e2⟩ := hinv
      simp only at e1 e2
      simp [duoStep, workerStep, DuoInv, hq2, e0, e1, e2, hA, scanned]
    | removed o1 => exact absurd hinv (by simp [DuoInv])
    | finished =>
      obtain ⟨e1, e2⟩ := hinv
      simp only at e1 e2
      simp [duoStep, workerStep, DuoInv, hq2, e1, e2, hB, scanned]
  | decided o2 =>
    cases pc1 with
    | query =>
      obtain ⟨e0, e1, e2⟩ := hinv
      simp only at e1 e2
      simp [duoStep, workerStep, DuoInv, hi2, e0, e1, e2, dbInsert]
    | decided o1 =>
      obtain ⟨e0, e0b, e1, e2⟩ := hinv
      simp only at e1 e2
      simp [duoStep, workerStep, DuoInv, hi2, e0, e0b, e1, e2, dbInsert]
    | removed o1 => exact absurd hinv (by simp [DuoInv])
    | finished =>
      obtain ⟨e0, e1, e2⟩ := hinv
      simp only at e1 e2
      rcases e0 with e0 | e0
      · simp [duoStep, workerStep, DuoInv, hi2, e0, e1, e2, dbInsert]
      · subst e0
        have hcond : o2 ≠ "" ∧ o2 ≠ p2 := ⟨hp1, hne⟩
        simp only [duoStep, workerStep, if_true, hcond, ne_eq, not_false_eq_true, and_self]
        cases hrm : osRemove flt2.remove st.fs p2 with
        | none =>
          simp only [DuoInv]
          exact Or.inl ⟨e1, fun q _ => by rw [e2]⟩
        | some fs1 =>
          have := osRemove_eq _ _ _ _ hrm
          simp only [DuoInv, true_and]
          exact ⟨e1, by rw [this, e2]⟩
  | removed o2 =>
    cases pc1 with
    | query => exact absurd hinv (by simp [DuoInv])
    | decided o1 => exact absurd hinv (by simp [DuoInv])
    | removed o1 => exact absurd hinv (by simp [DuoInv])
    | finished =>
      obtain ⟨e0, e1, e2⟩ := hinv
      simp only at e1 e2
      simp only [duoStep, workerStep, if_true]
      cases hln : osSymlink flt2.symlink st.fs o2 p2 with
      | none =>
        simp only [DuoInv]
        refine Or.inl ⟨e1, ?_⟩
        intro q hq
        simp [e2, hq]
      | some fs2 =>
        have := osSymlink_eq _ _ _ _ _ hln
        simp only [DuoInv]
        refine Or.inl ⟨e1, ?_⟩
        intro q hq
        simp [this, e2, hq]
  | finished =>
    simpa [duoStep, workerStep] using hinv

theorem duoRun_inv (flt1 flt2 : Faults) (h p1 p2 : String) (idx : Index) (fs : FS)
    (hq1 : flt1.query = false) (hi1 : flt1.insert = false)
    (hq2 : flt2.query = false) (hi2 : flt2.insert = false)
    (hne : p1 ≠ p2) (hp1 : p1 ≠ "") (hp2 : p2 ≠ "") (habs : ∀ r ∈ idx, r.1 ≠ h)
    (sched : List Bool) (d : Duo) (hinv : DuoInv idx fs h p1 p2 d) :
    DuoInv idx fs h p1 p2 (duoRun flt1 flt2 ⟨p1, h⟩ ⟨p2, h⟩ sched d) := by
  induction sched generalizing d with
  | nil => exact hinv
  | cons b rest ih =>
    simp only [duoRun]
    apply ih
    cases b with
    | false => exact workerStep_inv_first flt1 flt2 h p1 p2 idx fs hq1 hi1 hne hp2 habs d hinv
    | true => exact workerStep_inv_second flt1 flt2 h p1 p2 idx fs hq2 hi2 hne hp1 habs d hinv

/-- A worker that runs alone does one iteration of the `dbWorker` loop. -/
theorem workerStep_alone (flt : Faults) (op : FileOp) (s : State) :
    workerSolo flt op s = (.finished, dbWorkerStep flt op s) := by
  unfold dbWorkerStep workerSolo
  cases hq : queryRow flt.query s.index op.Hash with
  | err => simp [workerStep, hq]
  | errNoRows =>
    simp only [workerStep, hq, scanned, ne_eq, not_true_eq_false, false_and, if_false, if_true]
    cases dbInsert flt.insert s.index op.Hash op.Path <;> simp [workerStep]
  | ok c =>
    simp only [workerStep, hq, scanned]
    by_cases hc : c ≠ "" ∧ c ≠ op.Path
    · simp only [hc, ne_eq, not_false_eq_true, and_self, if_true]
      cases hrm : osRemove flt.remove s.fs op.Path with
      | none => simp [workerStep]
      | some fs1 =>
        simp only [workerStep]
        cases osSymlink flt.symlink fs1 c op.Path <;> simp
    · simp only [hc, if_false]
      by_cases hc2 : c = ""
      · simp only [hc2, if_true]
        cases dbInsert flt.insert s.index op.Hash op.Path <;> simp [workerStep]
      · simp [hc2, workerStep]

theorem rowsFor_append_new (idx extra : Index) (h : String) (habs : ∀ r ∈ idx, r.1 ≠ h)
    (hextra : ∀ r ∈ extra, r.1 = h) : rowsFor h (idx ++ extra) = extra := by
  have h1 : rowsFor h idx = [] := (rowsFor_eq_nil_iff h idx).2 ((firstRow_eq_none_iff h idx).2 habs)
  simp only [rowsFor] at h1 ⊢
  rw [List.filter_append, h1, List.nil_append, List.filter_eq_self]
  intro r hr
  simpa using hextra r hr

/-- Claim C4, as the code has it.  The lookup and the insert of `dbWorker` are
two statements and nothing makes the pair atomic.  Two workers process records
with the same fingerprint `h` and different non-empty paths `p1`, `p2`, from a
table without row for `h`, with a working store.  Under every interleaving that
lets both finish, the table ends with the old rows followed by one or two rows
for `h`: `p1` alone, `p2` alone, or both in either order.  A file is touched
only when the table ends with a single row for `h`, and then only the file of
the other worker: at most one of the two files is deleted. -/
theorem two_workers_same_fingerprint (flt1 flt2 : Faults) (h p1 p2 : String) (idx : Index)
    (fs : FS) (sched : List Bool)
    (hstore : flt1.query = false ∧ flt1.insert = false ∧ flt2.query = false
      ∧ flt2.insert = false)
    (hne : p1 ≠ p2) (hp1 : p1 ≠ "") (hp2 : p2 ≠ "") (habs : ∀ r ∈ idx, r.1 ≠ h)
    (hdone : (duoRun flt1 flt2 ⟨p1, h⟩ ⟨p2, h⟩ sched ⟨.query, .query, ⟨idx, fs⟩⟩).pc1 = .finished
      ∧ (duoRun flt1 flt2 ⟨p1, h⟩ ⟨p2, h⟩ sched ⟨.query, .query, ⟨idx, fs⟩⟩).pc2 = .finished) :
    (((duoRun flt1 flt2 ⟨p1, h⟩ ⟨p2, h⟩ sched ⟨.query, .query, ⟨idx, fs⟩⟩).st.index
          = idx ++ [(h, p1)]
        ∧ rowsFor h (duoRun flt1 flt2 ⟨p1, h⟩ ⟨p2, h⟩ sched ⟨.query, .query, ⟨idx, fs⟩⟩).st.index
          = [(h, p1)]
        ∧ ∀ q, q ≠ p2 →
          (duoRun flt1 flt2 ⟨p1, h⟩ ⟨p2, h⟩ sched ⟨.query, .query, ⟨idx, fs⟩⟩).st.fs q = fs q)
      ∨ ((duoRun flt1 flt2 ⟨p1, h⟩ ⟨p2, h⟩ sched ⟨.query, .query, ⟨idx, fs⟩⟩).st.index
          = idx ++ [(h, p2)]
        ∧ rowsFor h (duoRun flt1 flt2 ⟨p1, h⟩ ⟨p2, h⟩ sched ⟨.query, .query, ⟨idx, fs⟩⟩).st.index
          = [(h, p2)]
        ∧ ∀ q, q ≠ p1 →
          (duoRun flt1 flt2 ⟨p1, h⟩ ⟨p2, h⟩ sched ⟨.query, .query, ⟨idx, fs⟩⟩).st.fs q = fs q)
      ∨ ((duoRun flt1 flt2 ⟨p1, h⟩ ⟨p2, h⟩ sched ⟨.query, .query, ⟨idx, fs⟩⟩).st.index
          = idx ++ [(h, p1), (h, p2)]
        ∧ rowsFor h (duoRun flt1 flt2 ⟨p1, h⟩ ⟨p2, h⟩ sched ⟨.query, .query, ⟨idx, fs⟩⟩).st.index
          = [(h, p1), (h, p2)]
        ∧ (duoRun flt1 flt2 ⟨p1, h⟩ ⟨p2, h⟩ sched ⟨.query, .query, ⟨idx, fs⟩⟩).st.fs = fs)
      ∨ ((duoRun flt1 flt2 ⟨p1, h⟩ ⟨p2, h⟩ sched ⟨.query, .query, ⟨idx, fs⟩⟩).st.index
          = idx ++ [(h, p2), (h, p1)]
        ∧ rowsFor h (duoRun flt1 flt2 ⟨p1, h⟩ ⟨p2, h⟩ sched ⟨.query, .query, ⟨idx, fs⟩⟩).st.index
          = [(h, p2), (h, p1)]
        ∧ (duoRun flt1 flt2 ⟨p1, h⟩ ⟨p2, h⟩ sched ⟨.query, .query, ⟨idx, fs⟩⟩).st.fs = fs))
    ∧ ((duoRun flt1 flt2 ⟨p1, h⟩ ⟨p2, h⟩ sched ⟨.query, .query, ⟨idx, fs⟩⟩).st.fs p1 = fs p1
      ∨ (duoRun flt1 flt2 ⟨p1, h⟩ ⟨p2, h⟩ sched ⟨.query, .query, ⟨idx, fs⟩⟩).st.fs p2 = fs p2) := by
  obtain ⟨hq1, hi1, hq2, hi2⟩ := hstore
  have hinit : DuoInv idx fs h p1 p2 ⟨.query, .query, ⟨idx, fs⟩⟩ := ⟨rfl, rfl⟩
  have hinv := duoRun_inv flt1 flt2 h p1 p2 idx fs hq1 hi1 hq2 hi2 hne hp1 hp2 habs sched _ hinit
  generalize duoRun flt1 flt2 ⟨p1, h⟩ ⟨p2, h⟩ sched ⟨.query, .query, ⟨idx, fs⟩⟩ = d at hinv hdone ⊢
  obtain ⟨pc1, pc2, st⟩ := d
  simp only at hdone
  obtain ⟨e1, e2⟩ := hdone
  subst e1
  subst e2
  simp only [DuoInv] at hinv
  rcases hinv with ⟨hi, hf⟩ | ⟨hi, hf⟩ | ⟨hi, hf⟩ | ⟨hi, hf⟩
  · refine ⟨Or.inl ⟨hi, ?_, hf⟩, Or.inl (hf p1 hne)⟩
    rw [hi]
    exact rowsFor_append_new idx _ h habs (by simp)
  · refine ⟨Or.inr (Or.inl ⟨hi, ?_, hf⟩), Or.inr (hf p2 (fun e => hne e.symm))⟩
    rw [hi]
    exact rowsFor_append_new idx _ h habs (by simp)
  · refine ⟨Or.inr (Or.inr (Or.inl ⟨hi, ?_, hf⟩)), Or.inl (by rw [hf])⟩
    rw [hi]
    exact rowsFor_append_new idx _ h habs (by simp)
  · refine ⟨Or.inr (Or.inr (Or.inr ⟨hi, ?_, hf⟩)), Or.inl (by rw [hf])⟩
    rw [hi]
    exact rowsFor_append_new idx _ h habs (by simp)

theorem two_workers_same_fingerprint_witness :
    (duoRun noFaults noFaults ⟨"a/x", "h"⟩ ⟨"b/y", "h"⟩ [false, false, true, true, true]
        ⟨.query, .query,
          ⟨[], fun q => if q = "a/x" ∨ q = "b/y" then some (.regular [104]) else none⟩⟩).st.index
      = [("h", "a/x")]
    ∧ (duoRun noFaults noFaults ⟨"a/x", "h"⟩ ⟨"b/y", "h"⟩ [false, false, true, true, true]
        ⟨.query, .query,
          ⟨[], fun q => if q = "a/x" ∨ q = "b/y" then some (.regular [104]) else none⟩⟩).st.fs
        "b/y" = some (.symlink "a/x")
    ∧ ((duoRun noFaults noFaults ⟨"a/x", "h"⟩ ⟨"b/y", "h"⟩ [false, false, true, true, true]
        ⟨.query, .query,
          ⟨[], fun q => if q = "a/x" ∨ q = "b/y" then some (.regular [104]) else none⟩⟩).st.fs
        "a/x" = some (.regular [104])
      ∨ (duoRun noFaults noFaults ⟨"a/x", "h"⟩ ⟨"b/y", "h"⟩ [false, false, true, true, true]
        ⟨.query, .query,
          ⟨[], fun q => if q = "a/x" ∨ q = "b/y" then some (.regular [104]) else none⟩⟩).st.fs
        "b/y" = some (.regular [104])) :=
  ⟨by decide, by decide,
    (two_workers_same_fingerprint noFaults noFaults "h" "a/x" "b/y" []
      (fun q => if q = "a/x" ∨ q = "b/y" then some (.regular [104]) else none)
      [false, false, true, true, true] (by decide) (by decide) (by decide) (by decide)
      (by decide) (by decide)).2⟩

/-- Claim C4 as stated fails: when both workers look up the fingerprint before
either inserts, both find no row and both insert; the table ends with two rows
for the fingerprint. -/
theorem two_lookups_then_two_inserts :
    (duoRun noFaults noFaults ⟨"a/x", "h"⟩ ⟨"b/y", "h"⟩ [false, true, false, true]
        ⟨.query, .query,
          ⟨[], fun q => if q = "a/x" ∨ q = "b/y" then some (.regular [104]) else none⟩⟩).pc1
      = .finished
    ∧ (duoRun noFaults noFaults ⟨"a/x", "h"⟩ ⟨"b/y", "h"⟩ [false, true, false, true]
        ⟨.query, .query,
          ⟨[], fun q => if q = "a/x" ∨ q = "b/y" then some (.regular [104]) else none⟩⟩).pc2
      = .finished
    ∧ (duoRun noFaults noFaults ⟨"a/x", "h"⟩ ⟨"b/y", "h"⟩ [false, true, false, true]
        ⟨.query, .query,
          ⟨[], fun q => if q = "a/x" ∨ q = "b/y" then some (.regular [104]) else none⟩⟩).st.index
      = [("h", "a/x"), ("h", "b/y")]
    ∧ (rowsFor "h" (duoRun noFaults noFaults ⟨"a/x", "h"⟩ ⟨"b/y", "h"⟩ [false, true, false, true]
        ⟨.query, .query,
          ⟨[], fun q => if q = "a/x" ∨ q = "b/y" then some (.regular [104]) else none⟩⟩).st.index
        ).length = 2 := by
  decide

/-! ### Running the pipeline twice -/

theorem sha256File_of_chunking (digest : List UInt8 → List UInt8) (content : List UInt8)
    (reads : List ReadResult) (hch : Chunking content reads) :
    sha256File digest (some reads) = .ok (fingerprintSpec digest content) := by
  obtain ⟨body, last, hreads, hbody, hlast, hsize, hcontent⟩ := hch
  subst hreads
  have := readLoop_append_eof digest body last [] [] hbody hlast hsize
  simp only [List.nil_append, List.append_nil] at this
  simp only [sha256File, this, fingerprintSpec, hcontent]

theorem osLstat_some {fs : FS} {p : String} {n : Node} (h : osLstat fs p = some n) :
    p ≠ "" ∧ fs p = some n := by
  simp only [osLstat] at h
  split at h
  · cases h
  · exact ⟨by assumption, h⟩

theorem firstRow_of_mem_nodup (h p : String) (idx : Index)
    (hnd : (idx.map Prod.fst).Nodup) (hm : (h, p) ∈ idx) : firstRow h idx = some p := by
  induction idx with
  | nil => simp at hm
  | cons r rest ih =>
    obtain ⟨k, v⟩ := r
    simp only [List.map_cons, List.nodup_cons] at hnd
    simp only [List.mem_cons, Prod.mk.injEq] at hm
    rcases hm with ⟨e1, e2⟩ | hm
    · subst e1
      subst e2
      simp [firstRow]
    · have hk : k ≠ h := by
        intro e
        apply hnd.1
        rw [e]
        exact List.mem_map.2 ⟨(h, p), hm, rfl⟩
      simp only [firstRow, hk, if_false]
      exact ih hnd.2 hm

theorem dbWorkerStep_insert (p h : String) (st : State) (hfr : firstRow h st.index = none) :
    dbWorkerStep noFaults ⟨p, h⟩ st = { st with index := st.index ++ [(h, p)] } := by
  simp [dbWorkerStep, queryRow, noFaults, hfr, scanned, dbInsert]

theorem dbWorkerStep_same (p h : String) (st : State) (hfr : firstRow h st.index = some p)
    (hp : p ≠ "") : dbWorkerStep noFaults ⟨p, h⟩ st = st := by
  simp [dbWorkerStep, queryRow, noFaults, hfr, scanned, hp]

theorem dbWorkerStep_link (p h t : String) (n : Node) (st : State)
    (hfr : firstRow h st.index = some t) (ht : t ≠ "") (htp : t ≠ p)
    (hn : osLstat st.fs p = some n) :
    dbWorkerStep noFaults ⟨p, h⟩ st
      = { st with fs := fun q => if q = p then some (.symlink t) else st.fs q } := by
  have hp := (osLstat_some hn).1
  have hrm : osRemove false st.fs p = some (fun q => if q = p then none else st.fs q) := by
    simp [osRemove, hn]
  have hln : osSymlink false (fun q => if q = p then none else st.fs q) t p
      = some (fun q => if q = p then some (.symlink t) else st.fs q) := by
    simp only [osSymlink, Bool.false_eq_true, ht, hp, or_self, if_false, if_true]
    congr 1
    funext q
    by_cases hq : q = p <;> simp [hq]
  simp [dbWorkerStep, queryRow, noFaults, hfr, scanned, ht, htp, hrm, hln]

theorem storeWrite_same (store : StoreFile) (before after : State)
    (h : after.index = before.index) : storeWrite store before after = after := by
  simp [storeWrite, h]

theorem storeWrite_insert (store : StoreFile) (st : State) (row : String × String) :
    storeWrite store st { st with index := st.index ++ [row] }
      = { index := st.index ++ [row],
          fs := fun q =>
            if q = store.path then some (.regular (store.bytes (st.index ++ [row])))
            else st.fs q } := by
  simp [storeWrite]

theorem pipelineStep_inv (digest : List UInt8 → List UInt8) (store : StoreFile) (fs0 : FS)
    (file : FS → String → Option (List ReadResult)) (done : List String) (st : State)
    (p : String) (c : List UInt8) (hinv : RunInv digest store fs0 done st) (hnew : p ∉ done)
    (hps : p ≠ store.path) (hreg : osLstat fs0 p = some (.regular c)) (hread : Readable file) :
    RunInv digest store fs0 (done ++ [p]) (pipelineStep digest file store st p) := by
  obtain ⟨hp, hfs0⟩ := osLstat_some hreg
  have hcur : st.fs p = some (.regular c) := by rw [hinv.rest p hnew hps, hfs0]
  have hls : osLstat st.fs p = some (.regular c) := by simp [osLstat, hp, hcur]
  obtain ⟨reads, hfile, hch⟩ := hread st.fs p c hls
  have hpf : processFile digest file st.fs p = some ⟨p, fingerprintSpec digest c⟩ := by
    simp [processFile, hfile, sha256File_of_chunking digest c reads hch]
  simp only [pipelineStep, hpf]
  cases hfr : firstRow (fingerprintSpec digest c) st.index with
  | none =>
    rw [dbWorkerStep_insert p _ st hfr, storeWrite_insert]
    have hno := (firstRow_eq_none_iff _ _).1 hfr
    have hkeep : ∀ q, q ≠ store.path →
        (if q = store.path then
          some (Node.regular (store.bytes (st.index ++ [(fingerprintSpec digest c, p)])))
        else st.fs q) = st.fs q := fun q hq => by simp [hq]
    refine ⟨?_, ?_, ?_, ?_, ?_, ?_, ?_⟩
    · simp only [List.map_append, List.map_cons, List.map_nil]
      rw [List.nodup_append]
      refine ⟨hinv.keys, List.nodup_singleton _, ?_⟩
      intro a ha hb
      simp only [List.mem_singleton] at hb
      subst hb
      obtain ⟨r, hr, hra⟩ := List.mem_map.1 ha
      exact hno r hr hra
    · intro h q hm
      simp only [List.mem_append, List.mem_singleton, Prod.mk.injEq] at hm
      rcases hm with hm | ⟨e1, e2⟩
      · obtain ⟨hd, c1, hc1, hc2⟩ := hinv.canon h q hm
        have hq := hinv.notStore q hd
        refine ⟨List.mem_append_left _ hd, c1, ?_, hc2⟩
        simpa [osLstat, hq] using hc1
      · subst e1
        subst e2
        refine ⟨by simp, c, ?_, rfl⟩
        simpa [osLstat, hps] using hls
    · intro q hq
      simp only [List.mem_append, List.mem_singleton] at hq
      rcases hq with hq | hq
      · have hqs := hinv.notStore q hq
        simp only [hkeep q hqs]
        rcases hinv.doneOk q hq with ⟨t, h, h1, h2⟩ | ⟨c1, h1, h2⟩
        · exact Or.inl ⟨t, h, h1, List.mem_append_left _ h2⟩
        · exact Or.inr ⟨c1, h1, List.mem_append_left _ h2⟩
      · subst hq
        simp only [hkeep q hps]
        exact Or.inr ⟨c, hcur, by simp⟩
    · intro q hq
      simp only [List.mem_append, List.mem_singleton] at hq
      rcases hq with hq | hq
      · exact hinv.notStore q hq
      · subst hq
        exact hps
    · intro q hq hqs
      simp only [List.mem_append, List.mem_singleton, not_or] at hq
      simp only [hkeep q hqs]
      exact hinv.rest q hq.1 hqs
    · intro q t hqt
      by_cases hqs : q = store.path
      · simp [hqs] at hqt
      · simp only [hqs, if_false] at hqt
        rcases hinv.links q t hqt with h1 | ⟨h, h1⟩
        · exact Or.inl h1
        · exact Or.inr ⟨h, List.mem_append_left _ h1⟩
    · intro q c1 hqs hq
      simp only [hqs, if_false] at hq
      exact hinv.regs q c1 hqs hq
  | some t =>
    have hmem := firstRow_some_mem hfr
    obtain ⟨htdone, ct, htreg, htfp⟩ := hinv.canon _ _ hmem
    have ht : t ≠ "" := (osLstat_some htreg).1
    have htp : t ≠ p := fun e => hnew (e ▸ htdone)
    rw [dbWorkerStep_link p _ t _ st hfr ht htp hls,
      storeWrite_same store st
        ⟨st.index, fun q => if q = p then some (Node.symlink t) else st.fs q⟩ rfl]
    refine ⟨hinv.keys, ?_, ?_, ?_, ?_, ?_, ?_⟩
    · intro h q hm
      obtain ⟨hd, c1, hc1, hc2⟩ := hinv.canon h q hm
      have hqp : q ≠ p := fun e => hnew (e ▸ hd)
      refine ⟨List.mem_append_left _ hd, c1, ?_, hc2⟩
      simpa [osLstat, hqp] using hc1
    · intro q hq
      simp only [List.mem_append, List.mem_singleton] at hq
      rcases hq with hq | hq
      · have hqp : q ≠ p := fun e => hnew (e ▸ hq)
        simpa [hqp] using hinv.doneOk q hq
      · subst hq
        exact Or.inl ⟨t, _, by simp, hmem⟩
    · intro q hq
      simp only [List.mem_append, List.mem_singleton] at hq
      rcases hq with hq | hq
      · exact hinv.notStore q hq
      · subst hq
        exact hps
    · intro q hq hqs
      simp only [List.mem_append, List.mem_singleton, not_or] at hq
      simp only [hq.2, if_false]
      exact hinv.rest q hq.1 hqs
    · intro q t1 hqt
      by_cases hqp : q = p
      · simp only [hqp, if_true, Option.some.injEq, Node.symlink.injEq] at hqt
        subst hqt
        exact Or.inr ⟨_, hmem⟩
      · simp only [hqp, if_false] at hqt
        exact hinv.links q t1 hqt
    · intro q c1 hqs hq
      by_cases hqp : q = p
      · simp [hqp] at hq
      · simp only [hqp, if_false] at hq
        exact hinv.regs q c1 hqs hq

theorem pipeline_inv (digest : List UInt8 → List UInt8) (store : StoreFile) (fs0 : FS)
    (file : FS → String → Option (List ReadResult)) (hread : Readable file)
    (todo : List String) :
    ∀ (done : List String) (st : State), RunInv digest store fs0 done st →
      (done ++ todo).Nodup →
      (∀ p ∈ todo, p ≠ store.path ∧ ∃ c, osLstat fs0 p = some (.regular c)) →
      RunInv digest store fs0 (done ++ todo) (pipeline digest file store todo st) := by
  induction todo with
  | nil =>
    intro done st hinv _ _
    simpa [pipeline] using hinv
  | cons p rest ih =>
    intro done st hinv hnd hreg
    obtain ⟨hps, c, hc⟩ := hreg p (List.mem_cons_self _ _)
    have hnew : p ∉ done := by
      intro hp
      rw [List.nodup_append] at hnd
      exact hnd.2.2 hp (List.mem_cons_self _ _)
    have hstep := pipelineStep_inv digest store fs0 file done st p c hinv hnew hps hc hread
    have := ih (done ++ [p]) _ hstep (by simpa using hnd)
      (fun q hq => hreg q (List.mem_cons_of_mem _ hq))
    simpa [pipeline] using this

theorem foldl_fixed {α β : Type} (f : α → β → α) (a : α) (l : List β)
    (h : ∀ b ∈ l, f a b = a) : l.foldl f a = a := by
  induction l with
  | nil => rfl
  | cons b rest ih =>
    simp only [List.foldl_cons]
    rw [h b (List.mem_cons_self _ _)]
    exact ih (fun x hx => h x (List.mem_cons_of_mem _ hx))

theorem followLink_of_isAbs (linkDir target : String) (h : IsAbs target = true) :
    followLink linkDir target = target := by
  simp [followLink, h]

/-- Claim C7, as the code has it.  Idempotence of a run over a tree that does
not contain the store file `file_hashes.db`: when the traversal sends the
regular files under the root, each is hashed, and the records are resolved one
at a time in any order, from the empty table and with no I/O or store error, a
second run over the file system and the table the first run left leaves both
exactly as they are: every record of the second run is a no-op, so no file is
deleted or linked again and no row is added.  When the paths sent are absolute
(an absolute root), a link the first run created points at a regular file,
never at another link. -/
theorem pipeline_idempotent (digest : List UInt8 → List UInt8) (store : StoreFile)
    (under : String → Bool) (fs0 : FS)
    (file1 file2 : FS → String → Option (List ReadResult)) (paths1 paths2 : List String)
    (hstore : under store.path = false)
    (hemit1 : Emits under fs0 paths1) (hread1 : Readable file1)
    (hemit2 : Emits under (pipeline digest file1 store paths1 ⟨[], fs0⟩).fs paths2)
    (hread2 : Readable file2) :
    pipeline digest file2 store paths2 (pipeline digest file1 store paths1 ⟨[], fs0⟩)
      = pipeline digest file1 store paths1 ⟨[], fs0⟩
    ∧ (∀ p ∈ paths2,
        pipelineStep digest file2 store (pipeline digest file1 store paths1 ⟨[], fs0⟩) p
          = pipeline digest file1 store paths1 ⟨[], fs0⟩)
    ∧ ((∀ p ∈ paths1, IsAbs p = true) →
        ∀ q t, (pipeline digest file1 store paths1 ⟨[], fs0⟩).fs q = some (.symlink t) →
          fs0 q ≠ some (.symlink t) →
          ∃ c, (pipeline digest file1 store paths1 ⟨[], fs0⟩).fs (linkDestination q t)
            = some (.regular c)) := by
  have hns : ∀ p, under p = true → p ≠ store.path := by
    intro p hp e
    rw [e, hstore] at hp
    cases hp
  have hinit : RunInv digest store fs0 [] ⟨[], fs0⟩ :=
    ⟨by simp, by simp, by simp, by simp, fun _ _ _ => rfl, fun _ _ h => Or.inl h,
      fun _ _ _ h => h⟩
  have hinv := pipeline_inv digest store fs0 file1 hread1 paths1 [] ⟨[], fs0⟩ hinit
    (by simpa using hemit1.1)
    (fun p hp => ⟨hns p ((hemit1.2 p).1 hp).1, ((hemit1.2 p).1 hp).2⟩)
  simp only [List.nil_append] at hinv
  generalize pipeline digest file1 store paths1 ⟨[], fs0⟩ = st1 at hinv hemit2 ⊢
  have hstep : ∀ p ∈ paths2, pipelineStep digest file2 store st1 p = st1 := by
    intro p hp
    obtain ⟨hu, c, hc⟩ := (hemit2.2 p).1 hp
    obtain ⟨hpne, hcur⟩ := osLstat_some hc
    have h0 : osLstat fs0 p = some (.regular c) := by
      simp [osLstat, hpne, hinv.regs p c (hns p hu) hcur]
    have hdone : p ∈ paths1 := (hemit1.2 p).2 ⟨hu, c, h0⟩
    have hrow : (fingerprintSpec digest c, p) ∈ st1.index := by
      rcases hinv.doneOk p hdone with ⟨t, h, h1, -⟩ | ⟨c1, h1, h2⟩
      · rw [hcur] at h1
        cases h1
      · rw [hcur] at h1
        simp only [Option.some.injEq, Node.regular.injEq] at h1
        subst h1
        exact h2
    have hfr := firstRow_of_mem_nodup _ _ _ hinv.keys hrow
    obtain ⟨reads, hfile, hch⟩ := hread2 st1.fs p c hc
    have hpf : processFile digest file2 st1.fs p = some ⟨p, fingerprintSpec digest c⟩ := by
      simp [processFile, hfile, sha256File_of_chunking digest c reads hch]
    simp only [pipelineStep, hpf]
    rw [dbWorkerStep_same p _ st1 hfr hpne]
    exact storeWrite_same _ _ _ rfl
  refine ⟨foldl_fixed _ _ _ hstep, hstep, ?_⟩
  intro habs q t hq hne
  rcases hinv.links q t hq with h | ⟨h, hm⟩
  · exact absurd h hne
  · obtain ⟨hd, c, hc, -⟩ := hinv.canon h t hm
    rw [linkDestination, followLink_of_isAbs _ _ (habs t hd)]
    exact ⟨c, (osLstat_some hc).2⟩

theorem flatten_map_readByByte (c : List UInt8) :
    ((c.map (fun b => ReadResult.mk [b] .nil) ++ [ReadResult.mk [] .eof]).map
        ReadResult.data).flatten = c := by
  induction c with
  | nil => rfl
  | cons b rest ih =>
    simp only [List.map_cons, List.cons_append, List.flatten_cons, List.singleton_append]
    rw [ih]
    rfl

theorem readable_readByByte : Readable readByByte := by
  intro fs p c hc
  refine ⟨c.map (fun b => ⟨[b], .nil⟩) ++ [⟨[], .eof⟩], by simp [readByByte, hc], ?_⟩
  refine ⟨c.map (fun b => ⟨[b], .nil⟩), ⟨[], .eof⟩, rfl, ?_, rfl, ?_, flatten_map_readByByte c⟩
  · intro r hr
    obtain ⟨b, -, hb⟩ := List.mem_map.1 hr
    rw [← hb]
  · intro r hr
    simp only [List.mem_append, List.mem_map, List.mem_singleton] at hr
    rcases hr with ⟨b, -, hb⟩ | hr
    · rw [← hb]
      simp [BufferSize]
    · rw [hr]
      simp [BufferSize]

theorem pipeline_idempotent_witness :
    pipeline id readByByte rowsStore ["/r/a"]
        (pipeline id readByByte rowsStore ["/r/a", "/r/b"] ⟨[], twoFiles⟩)
      = pipeline id readByByte rowsStore ["/r/a", "/r/b"] ⟨[], twoFiles⟩
    ∧ (pipeline id readByByte rowsStore ["/r/a", "/r/b"] ⟨[], twoFiles⟩).index
      = [("68", "/r/a")]
    ∧ (pipeline id readByByte rowsStore ["/r/a", "/r/b"] ⟨[], twoFiles⟩).fs "/r/b"
      = some (.symlink "/r/a")
    ∧ ∃ c, (pipeline id readByByte rowsStore ["/r/a", "/r/b"] ⟨[], twoFiles⟩).fs
        (linkDestination "/r/b" "/r/a") = some (.regular c) := by
  have hst : pipeline id readByByte rowsStore ["/r/a", "/r/b"] ⟨[], twoFiles⟩
      = ⟨[("68", "/r/a")], fun q => if q = "/r/b" then some (.symlink "/r/a") else
          if q = "/r/b" then none else
          if q = "file_hashes.db" then some (.regular (rowsStore.bytes [("68", "/r/a")]))
          else twoFiles q⟩ := by rfl
  have hemit1 : Emits (fun q => decide (q ≠ "file_hashes.db")) twoFiles ["/r/a", "/r/b"] := by
    refine ⟨by decide, fun p => ?_⟩
    constructor
    · intro hp
      simp only [List.mem_cons, List.mem_singleton, List.not_mem_nil, or_false] at hp
      rcases hp with hp | hp <;> subst hp <;> exact ⟨by decide, [104], by decide⟩
    · rintro ⟨-, c, hc⟩
      have := (osLstat_some hc).2
      simp only [twoFiles] at this
      split at this
      · simpa using ‹p = "/r/a" ∨ p = "/r/b"›
      · cases this
  have hemit2 : Emits (fun q => decide (q ≠ "file_hashes.db"))
      (pipeline id readByByte rowsStore ["/r/a", "/r/b"] ⟨[], twoFiles⟩).fs ["/r/a"] := by
    rw [hst]
    refine ⟨by decide, fun p => ?_⟩
    constructor
    · intro hp
      simp only [List.mem_singleton] at hp
      subst hp
      exact ⟨by decide, [104], by decide⟩
    · rintro ⟨hu, c, hc⟩
      have := (osLstat_some hc).2
      simp only [decide_eq_true_eq] at hu
      simp only [twoFiles] at this
      by_cases hb : p = "/r/b"
      · simp [hb] at this
      · simp only [hb, if_false, hu, or_false] at this
        split at this
        · simpa using ‹p = "/r/a"›
        · cases this
  have h := pipeline_idempotent id rowsStore (fun q => decide (q ≠ "file_hashes.db")) twoFiles
    readByByte readByByte ["/r/a", "/r/b"] ["/r/a"] (by decide) hemit1 readable_readByByte
    hemit2 readable_readByByte
  refine ⟨h.1, by rw [hst], by rw [hst]; rfl, ?_⟩
  exact h.2.2 (by decide) "/r/b" "/r/a" (by rw [hst]; rfl) (by decide)

/-- Claim C7 as stated fails in two ways.  With the store file under the root
(`file_hashes.db` next to a file `a`, the root being the working directory) the
first run hashes the store file and inserts a row for it, which changes its
bytes, so the second run finds a new fingerprint and adds a third row.  With a
relative root `r` and three files of the same content, the first run makes
`r/b/y` a link with target `r/a/x`, which from the directory of the link is
`r/b/r/a/x`, a link the same run created. -/
theorem pipeline_not_idempotent :
    (Emits (fun _ => true) fileAndStore ["a", "file_hashes.db"]
      ∧ Emits (fun _ => true)
          (pipeline id readByByte rowsStore ["a", "file_hashes.db"] ⟨[], fileAndStore⟩).fs
          ["a", "file_hashes.db"]
      ∧ (pipeline id readByByte rowsStore ["a", "file_hashes.db"] ⟨[], fileAndStore⟩).index.length
          = 2
      ∧ (pipeline id readByByte rowsStore ["a", "file_hashes.db"]
          (pipeline id readByByte rowsStore ["a", "file_hashes.db"]
            ⟨[], fileAndStore⟩)).index.length = 3)
    ∧ (Emits (fun q => decide (q ≠ "file_hashes.db")) threeFiles
          ["r/a/x", "r/b/y", "r/b/r/a/x"]
      ∧ threeFiles "r/b/y" = some (.regular [104])
      ∧ (pipeline id readByByte rowsStore ["r/a/x", "r/b/y", "r/b/r/a/x"] ⟨[], threeFiles⟩).fs
          "r/b/y" = some (.symlink "r/a/x")
      ∧ linkDestination "r/b/y" "r/a/x" = "r/b/r/a/x"
      ∧ threeFiles "r/b/r/a/x" = some (.regular [104])
      ∧ (pipeline id readByByte rowsStore ["r/a/x", "r/b/y", "r/b/r/a/x"] ⟨[], threeFiles⟩).fs
          "r/b/r/a/x" = some (.symlink "r/a/x")) := by
  have hst : pipeline id readByByte rowsStore ["a", "file_hashes.db"] ⟨[], fileAndStore⟩
      = ⟨[("68", "a"), ("53363861", "file_hashes.db")], fun q =>
          if q = "file_hashes.db" then
            some (.regular (rowsStore.bytes [("68", "a"), ("53363861", "file_hashes.db")]))
          else if q = "file_hashes.db" then some (.regular (rowsStore.bytes [("68", "a")]))
          else fileAndStore q⟩ := by rfl
  refine ⟨⟨?_, ?_, by rw [hst]; rfl, by rfl⟩, ?_, by decide, by rfl, by decide, by decide, by rfl⟩
  · refine ⟨by decide, fun p => ?_⟩
    constructor
    · intro hp
      simp only [List.mem_cons, List.mem_singleton, List.not_mem_nil, or_false] at hp
      rcases hp with hp | hp <;> subst hp <;> exact ⟨rfl, _, rfl⟩
    · rintro ⟨-, c, hc⟩
      have := (osLstat_some hc).2
      simp only [fileAndStore] at this
      by_cases ha : p = "a"
      · simp [ha]
      · by_cases hs : p = "file_hashes.db"
        · simp [hs]
        · simp [ha, hs] at this
  · rw [hst]
    refine ⟨by decide, fun p => ?_⟩
    constructor
    · intro hp
      simp only [List.mem_cons, List.mem_singleton, List.not_mem_nil, or_false] at hp
      rcases hp with hp | hp <;> subst hp <;> exact ⟨rfl, _, rfl⟩
    · rintro ⟨-, c, hc⟩
      have := (osLstat_some hc).2
      simp only [fileAndStore] at this
      by_cases ha : p = "a"
      · simp [ha]
      · by_cases hs : p = "file_hashes.db"
        · simp [hs]
        · simp [ha, hs] at this
  · refine ⟨by decide, fun p => ?_⟩
    constructor
    · intro hp
      simp only [List.mem_cons, List.mem_singleton, List.not_mem_nil, or_false] at hp
      rcases hp with hp | hp | hp <;> subst hp <;> exact ⟨by decide, [104], by decide⟩
    · rintro ⟨-, c, hc⟩
      have := (osLstat_some hc).2
      simp only [threeFiles] at this
      split at this
      · simpa using ‹p = "r/a/x" ∨ p = "r/b/y" ∨ p = "r/b/r/a/x"›
      · cases this

/-! ### The paths of the records are not empty -/

theorem joinSlash_ne_nil (es : List (List Char)) (hne : es ≠ [])
    (h : ∀ e ∈ es, e ≠ []) : joinSlash es ≠ [] := by
  cases es with
  | nil => exact absurd rfl hne
  | cons e rest =>
    have he := h e (List.mem_cons_self _ _)
    cases rest with
    | nil => simpa [joinSlash] using he
    | cons e2 rest2 =>
      simp only [joinSlash]
      cases e with
      | nil => exact absurd rfl he
      | cons c cs => simp

/-- The function `filepath.Clean` never returns the empty string. -/
theorem Clean_ne_empty (path : String) : Clean path ≠ "" := by
  unfold Clean
  simp only
  split
  · intro h
    have := congrArg String.data h
    simp at this
  · split
    · decide
    · rename_i hel
      intro h
      have hd := congrArg String.data h
      simp only at hd
      have hN : NormalStack (IsAbs path)
          ((splitSlash path.data).foldl (cleanPush (IsAbs path)) []) :=
        foldl_cleanPush_normal _ _ _ trivial (mem_splitSlash _)
      have hmem := normalStack_mem _ _ hN
      refine joinSlash_ne_nil (cleanElems (IsAbs path) path.data) hel ?_ hd
      intro e he
      simp only [cleanElems, List.mem_reverse] at he
      exact (hmem e he).1

/-- The path `filepath.Join(dir, name)` is empty only when both arguments are. -/
theorem Join_ne_empty (dir name : String) (h : dir ≠ "" ∨ name ≠ "") : Join dir name ≠ "" := by
  unfold Join
  by_cases hd : dir = ""
  · have hn : name ≠ "" := by
      rcases h with h | h
      · exact absurd hd h
      · exact h
    simp only [hd, ne_eq, not_true_eq_false, if_false, hn, not_false_eq_true, if_true]
    exact Clean_ne_empty _
  · simp only [ne_eq, hd, not_false_eq_true, if_true]
    exact Clean_ne_empty _

/-- No path the traversal sends is the empty string: `os.ReadDir` needs a root
directory that is named. -/
theorem reachable_ne_empty (dir : String) (node : Tree) (p : String)
    (h : ReachableFile dir node p) : dir ≠ "" → p ≠ "" := by
  induction h with
  | here dir files name content _ => exact fun hd => Join_ne_empty dir name (Or.inl hd)
  | through dir files name sub p _ _ ih =>
    exact fun hd => ih (Join_ne_empty dir name (Or.inl hd))

end Dedup
